import Mathlib

/-!
# Verification of the Dependency Graph Engine

Shallow embedding of `dependency_analyzer/topo_sort.py` and
`dependency_analyzer/filter_components_by_cis.py`.

Modelling conventions:
* A Python `Dict[str, Set[str]]` is modelled as an association list
  `List (String × List String)`; dictionary keys are unique in Python, which we
  carry as `Nodup` hypotheses where a statement needs it, and the member lists
  of a Python `set` are duplicate-free, carried the same way.
* Python `float` arithmetic is modelled by exact rational arithmetic (`ℚ`).
* Recursive procedures whose termination is not structural are given explicit
  fuel, chosen large enough that the fuel-exhaustion branch is unreachable on
  the executions the theorems talk about.
-/

namespace RepoGen

/-- A dependency graph: node ↦ list of dependencies (natural direction,
`A -> B` means "A depends on B"). -/
abbrev Graph := List (String × List String)

/-- The keys (nodes present as dictionary keys) of a graph, in order. -/
def keysOf (g : Graph) : List String := g.map Prod.fst

/-- `graph.get(node, set())`: dependency list of `n`, empty if `n` is not a key. -/
def lookupG (g : Graph) (n : String) : List String :=
  ((g.find? (fun p => p.1 == n)).map Prod.snd).getD []

/-- Every dependency referenced by the graph is itself a key. -/
def Closed (g : Graph) : Prop :=
  ∀ p ∈ g, ∀ d ∈ p.2, d ∈ keysOf g

instance : DecidablePred Closed := fun g =>
  inferInstanceAs (Decidable (∀ p ∈ g, ∀ d ∈ p.2, d ∈ keysOf g))

/-- Well-formedness inherited from the Python types: dict keys are unique and
each dependency set is duplicate-free. -/
def WF (g : Graph) : Prop :=
  (keysOf g).Nodup ∧ ∀ p ∈ g, p.2.Nodup

instance : DecidablePred WF := fun g =>
  inferInstanceAs (Decidable ((keysOf g).Nodup ∧ ∀ p ∈ g, p.2.Nodup))

/-- The dependencies of the graph that are not present as keys, in first-encounter
order (iterating nodes in key order and each node's dependency set in order),
mirroring the second loop of `_normalize_graph`. -/
def missingDeps (g : Graph) : List String :=
  g.foldl
    (fun acc p =>
      p.2.foldl (fun acc2 d => if d ∈ keysOf g ∨ d ∈ acc2 then acc2 else acc2 ++ [d]) acc)
    []

/-- `_normalize_graph`: copy the graph and append every referenced-but-absent
node as a key with an empty dependency set.  (The Python function builds a
fresh dict, so the input is never mutated; in this pure embedding that is
automatic.) -/
def normalizeGraph (g : Graph) : Graph :=
  g ++ (missingDeps g).map (fun d => (d, []))

/-- Single step of the inner fold of `missingDeps`. -/
def mdStep (g : Graph) (acc2 : List String) (d : String) : List String :=
  if d ∈ keysOf g ∨ d ∈ acc2 then acc2 else acc2 ++ [d]

lemma missingDeps_eq (g : Graph) :
    missingDeps g = g.foldl (fun acc p => p.2.foldl (mdStep g) acc) [] := rfl

lemma mdFold_mono (g : Graph) (ds : List String) :
    ∀ (a : List String) (d : String), d ∈ a → d ∈ ds.foldl (mdStep g) a := by
  induction ds with
  | nil => intro a d h; exact h
  | cons e ds ih =>
    intro a d h
    simp only [List.foldl_cons]
    apply ih
    unfold mdStep
    split
    · exact h
    · exact List.mem_append.mpr (Or.inl h)

lemma mdOuter_mono (g : Graph) (l : List (String × List String)) :
    ∀ (acc : List String) (d : String), d ∈ acc →
      d ∈ l.foldl (fun acc p => p.2.foldl (mdStep g) acc) acc := by
  induction l with
  | nil => intro acc d h; exact h
  | cons p l ih =>
    intro acc d h
    simp only [List.foldl_cons]
    exact ih _ d (mdFold_mono g p.2 acc d h)

lemma mdFold_collect (g : Graph) (ds : List String) :
    ∀ (a : List String) (d : String), d ∈ ds → d ∉ keysOf g →
      d ∈ ds.foldl (mdStep g) a := by
  induction ds with
  | nil => intro a d h _; cases h
  | cons e ds ih =>
    intro a d h hk
    simp only [List.foldl_cons]
    rcases List.mem_cons.mp h with rfl | h'
    · by_cases hc : d ∈ keysOf g ∨ d ∈ a
      · rcases hc with hc | hc
        · exact absurd hc hk
        · apply mdFold_mono
          unfold mdStep
          split
          · exact hc
          · exact List.mem_append.mpr (Or.inl hc)
      · apply mdFold_mono
        unfold mdStep
        rw [if_neg hc]
        exact List.mem_append.mpr (Or.inr (List.mem_singleton.mpr rfl))
    · exact ih _ d h' hk

lemma mdFold_sound (g : Graph) (ds : List String) :
    ∀ (a : List String) (d : String), d ∈ ds.foldl (mdStep g) a →
      d ∈ a ∨ (d ∉ keysOf g ∧ d ∈ ds) := by
  induction ds with
  | nil => intro a d h; exact Or.inl h
  | cons e ds ih =>
    intro a d h
    simp only [List.foldl_cons] at h
    rcases ih _ d h with h' | h'
    · unfold mdStep at h'
      by_cases hc : e ∈ keysOf g ∨ e ∈ a
      · rw [if_pos hc] at h'
        exact Or.inl h'
      · rw [if_neg hc] at h'
        rcases List.mem_append.mp h' with h'' | h''
        · exact Or.inl h''
        · rw [List.mem_singleton] at h''
          subst h''
          rw [not_or] at hc
          exact Or.inr ⟨hc.1, List.mem_cons_self _ _⟩
    · exact Or.inr ⟨h'.1, List.mem_cons_of_mem _ h'.2⟩

lemma mem_missingDeps_not_key (g : Graph) : ∀ x ∈ missingDeps g, x ∉ keysOf g := by
  intro x hx
  rw [missingDeps_eq] at hx
  have : ∀ (l : List (String × List String)) (acc : List String),
      x ∈ l.foldl (fun acc p => p.2.foldl (mdStep g) acc) acc →
      x ∈ acc ∨ x ∉ keysOf g := by
    intro l
    induction l with
    | nil => intro acc h; exact Or.inl h
    | cons p l ih =>
      intro acc h
      simp only [List.foldl_cons] at h
      rcases ih _ h with h' | h'
      · rcases mdFold_sound g p.2 acc x h' with h'' | h''
        · exact Or.inl h''
        · exact Or.inr h''.1
      · exact Or.inr h'
  rcases this g [] hx with h | h
  · cases h
  · exact h

/-- If the graph is closed, no dependency is missing. -/
lemma missingDeps_eq_nil_of_closed (g : Graph) (h : Closed g) : missingDeps g = [] := by
  rw [missingDeps_eq]
  have inner : ∀ (ds : List String) (a : List String), (∀ d ∈ ds, d ∈ keysOf g) →
      ds.foldl (mdStep g) a = a := by
    intro ds
    induction ds with
    | nil => intro a _; rfl
    | cons d ds ihd =>
      intro a hds
      simp only [List.foldl_cons, mdStep, if_pos (Or.inl (hds d (List.mem_cons_self _ _)))]
      exact ihd a (fun d' hd' => hds d' (List.mem_cons_of_mem _ hd'))
  have : ∀ (l : List (String × List String)), (∀ p ∈ l, ∀ d ∈ p.2, d ∈ keysOf g) →
      l.foldl (fun acc p => p.2.foldl (mdStep g) acc) [] = [] := by
    intro l hl
    induction l with
    | nil => rfl
    | cons p l ih =>
      simp only [List.foldl_cons, inner p.2 [] (hl p (List.mem_cons_self _ _))]
      exact ih (fun q hq => hl q (List.mem_cons_of_mem _ hq))
  exact this g h

lemma keysOf_normalizeGraph (g : Graph) :
    keysOf (normalizeGraph g) = keysOf g ++ missingDeps g := by
  have hmap : (missingDeps g).map (Prod.fst ∘ fun d => (d, ([] : List String)))
      = missingDeps g := List.map_id (missingDeps g)
  simp only [normalizeGraph, keysOf, List.map_append, List.map_map]
  rw [hmap]

/-- `_normalize_graph` produces a closed graph. -/
lemma closed_normalizeGraph (g : Graph) : Closed (normalizeGraph g) := by
  intro p hp d hd
  rw [keysOf_normalizeGraph]
  rcases List.mem_append.mp hp with h | h
  · by_cases hk : d ∈ keysOf g
    · exact List.mem_append.mpr (Or.inl hk)
    · refine List.mem_append.mpr (Or.inr ?_)
      rw [missingDeps_eq]
      have outer : ∀ (l : List (String × List String)) (acc : List String),
          (∃ q ∈ l, d ∈ q.2) → d ∉ keysOf g →
          d ∈ l.foldl (fun acc p => p.2.foldl (mdStep g) acc) acc := by
        intro l
        induction l with
        | nil => rintro acc ⟨q, hq, _⟩ _; cases hq
        | cons q l ih =>
          rintro acc ⟨q', hq', hd'⟩ hks
          simp only [List.foldl_cons]
          rcases List.mem_cons.mp hq' with rfl | hq''
          · exact mdOuter_mono g l _ d (mdFold_collect g q'.2 acc d hd' hks)
          · exact ih _ ⟨q', hq'', hd'⟩ hks
      exact outer g [] ⟨p, h, hd⟩ hk
  · rcases List.mem_map.mp h with ⟨x, _, rfl⟩
    cases hd

/-- On an already-closed graph, `_normalize_graph` is the identity. -/
lemma normalizeGraph_eq_self_of_closed (g : Graph) (h : Closed g) :
    normalizeGraph g = g := by
  unfold normalizeGraph
  rw [missingDeps_eq_nil_of_closed g h]
  simp

/-- **C4.** `normalize` is idempotent on every finite input mapping (including
the empty one): normalizing twice equals normalizing once.  The non-mutation
half of the claim is inherent to this pure embedding: `_normalize_graph` builds
a fresh dictionary and never writes to its argument. -/
theorem normalize_idempotent (g : Graph) :
    normalizeGraph (normalizeGraph g) = normalizeGraph g :=
  normalizeGraph_eq_self_of_closed _ (closed_normalizeGraph g)

/-! ## Tarjan's algorithm (`detect_cycles`) -/

/-- Point update of a `String → Option Nat` map (dictionary assignment). -/
def updF (f : String → Option Nat) (k : String) (v : Nat) : String → Option Nat :=
  fun x => if x = k then some v else f x

/-- State of Tarjan's algorithm: `index_counter`, the `index` and `lowlink`
dictionaries, the explicit `stack` (head is the top), the `onstack` set
(modelled as the list of its members) and the accumulated `result`. -/
structure TState where
  counter : Nat
  index : String → Option Nat
  lowlink : String → Option Nat
  stack : List String
  onstack : List String
  result : List (List String)

/-- The pop loop at the end of `strongconnect`: pop the stack down to (and
including) `v`, returning the popped segment in pop order and the remaining
stack. -/
def popUntil (v : String) : List String → List String × List String
  | [] => ([], [])
  | w :: rest =>
    if w = v then ([w], rest)
    else
      let pr := popUntil v rest
      (w :: pr.1, pr.2)

/-- `strongconnect(node)` from `detect_cycles`, with explicit fuel bounding the
recursion depth (the Python recursion visits each unindexed node once, so any
fuel of at least the number of unindexed nodes is never exhausted).  The `for
successor in graph.get(node, set())` loop is the inner fold. -/
def strongconnect (g : Graph) : Nat → String → TState → TState
  | 0, _, s => s
  | fuel' + 1, v, s =>
    let s1 : TState :=
      { s with
        index := updF s.index v s.counter
        lowlink := updF s.lowlink v s.counter
        counter := s.counter + 1
        stack := v :: s.stack
        onstack := v :: s.onstack }
    let s2 := (lookupG g v).foldl
      (fun s w =>
        if (s.index w).isSome then
          if w ∈ s.onstack then
            { s with
              lowlink := updF s.lowlink v (min ((s.lowlink v).getD 0) ((s.index w).getD 0)) }
          else s
        else
          let s' := strongconnect g fuel' w s
          { s' with
            lowlink := updF s'.lowlink v (min ((s'.lowlink v).getD 0) ((s'.lowlink w).getD 0)) })
      s1
    if s2.lowlink v = s2.index v then
      let pr := popUntil v s2.stack
      let scc := pr.1
      let s3 : TState :=
        { s2 with
          stack := pr.2
          onstack := scc.foldl (fun os w => os.erase w) s2.onstack }
      if 1 < scc.length then { s3 with result := s3.result ++ [scc] }
      else
        match scc with
        | [only] =>
          if only ∈ lookupG g only then { s3 with result := s3.result ++ [scc] } else s3
        | _ => s3
    else s2

/-- The successor loop of `strongconnect`, abstracted over the successor list
(used to reason about `strongconnect` by induction). -/
def visitSuccs (g : Graph) (fuel : Nat) (v : String) (succs : List String) (s : TState) :
    TState :=
  succs.foldl
    (fun s w =>
      if (s.index w).isSome then
        if w ∈ s.onstack then
          { s with
            lowlink := updF s.lowlink v (min ((s.lowlink v).getD 0) ((s.index w).getD 0)) }
        else s
      else
        let s' := strongconnect g fuel w s
        { s' with
          lowlink := updF s'.lowlink v (min ((s'.lowlink v).getD 0) ((s'.lowlink w).getD 0)) })
    s

/-- The initial Tarjan state. -/
def initTState : TState := ⟨0, fun _ => none, fun _ => none, [], [], []⟩

/-- `detect_cycles`: normalize, then run `strongconnect` from every unindexed
node in key order; SCCs of size `> 1` and self-looping singletons are reported. -/
def detectCycles (g : Graph) : List (List String) :=
  let ng := normalizeGraph g
  ((keysOf ng).foldl
    (fun s node =>
      if (s.index node).isSome then s else strongconnect ng (keysOf ng).length node s)
    initTState).result

/-! ## String ordering

Python compares strings lexicographically by Unicode code point.  This is the
same order as Lean's built-in `String` order, but we define it structurally so
that concrete executions reduce inside the kernel. -/

/-- Strict code-point lexicographic order on character lists. -/
def lexLt : List Char → List Char → Bool
  | [], [] => false
  | [], _ :: _ => true
  | _ :: _, [] => false
  | a :: as, b :: bs =>
    if a.toNat < b.toNat then true
    else if b.toNat < a.toNat then false
    else lexLt as bs

/-- `a ≤ b` on strings, Python-style (code-point lexicographic). -/
def SLe (a b : String) : Prop := lexLt b.data a.data = false

instance : DecidableRel SLe := fun a b =>
  inferInstanceAs (Decidable (lexLt b.data a.data = false))

lemma lexLt_irrefl (l : List Char) : lexLt l l = false := by
  induction l with
  | nil => rfl
  | cons a as ih => simp [lexLt, ih]

lemma lexLt_trans {a b c : List Char} (hab : lexLt a b = true) (hbc : lexLt b c = true) :
    lexLt a c = true := by
  induction a generalizing b c with
  | nil =>
    cases c with
    | nil =>
      cases b with
      | nil => exact hab
      | cons y ys => simp [lexLt] at hbc
    | cons z zs => simp [lexLt]
  | cons x xs ih =>
    cases b with
    | nil => simp [lexLt] at hab
    | cons y ys =>
      cases c with
      | nil => simp [lexLt] at hbc
      | cons z zs =>
        simp only [lexLt] at hab hbc ⊢
        by_cases hxy : x.toNat < y.toNat
        · by_cases hyz : y.toNat < z.toNat
          · simp [Nat.lt_trans hxy hyz]
          · simp only [if_pos hxy] at hab
            by_cases hzy : z.toNat < y.toNat
            · simp [hyz, hzy] at hbc
            · have : y.toNat = z.toNat := Nat.le_antisymm (Nat.le_of_not_lt hzy) (Nat.le_of_not_lt hyz)
              simp [this ▸ hxy]
        · by_cases hyx : y.toNat < x.toNat
          · simp [hxy, hyx] at hab
          · have hxyeq : x.toNat = y.toNat :=
              Nat.le_antisymm (Nat.le_of_not_lt hyx) (Nat.le_of_not_lt hxy)
            simp only [if_neg hxy, if_neg hyx] at hab
            by_cases hyz : y.toNat < z.toNat
            · simp [hxyeq ▸ hyz]
            · by_cases hzy : z.toNat < y.toNat
              · simp [hyz, hzy] at hbc
              · simp only [if_pos hyz, if_neg hyz, if_neg hzy] at hbc
                have hxz : ¬ x.toNat < z.toNat := hxyeq ▸ hyz
                have hzx : ¬ z.toNat < x.toNat := hxyeq ▸ hzy
                simp only [if_neg hxz, if_neg hzx]
                exact ih hab hbc

lemma lexLt_tri {a b : List Char} (h : lexLt a b = false) : lexLt b a = true ∨ a = b := by
  induction a generalizing b with
  | nil =>
    cases b with
    | nil => exact Or.inr rfl
    | cons y ys => simp [lexLt] at h
  | cons x xs ih =>
    cases b with
    | nil => simp [lexLt]
    | cons y ys =>
      simp only [lexLt] at h ⊢
      by_cases hxy : x.toNat < y.toNat
      · simp [hxy] at h
      · by_cases hyx : y.toNat < x.toNat
        · simp [hyx]
        · have hxyeq : x.toNat = y.toNat :=
            Nat.le_antisymm (Nat.le_of_not_lt hyx) (Nat.le_of_not_lt hxy)
          have hchar : x = y := Char.eq_of_val_eq (by
            apply UInt32.eq_of_toBitVec_eq
            apply BitVec.eq_of_toNat_eq
            exact hxyeq)
          simp only [if_neg hxy, if_neg hyx] at h
          rcases ih h with h' | h'
          · exact Or.inl (by simp [hxy, hyx, h'])
          · exact Or.inr (by rw [hchar, h'])

lemma sle_total (a b : String) : SLe a b ∨ SLe b a := by
  unfold SLe
  by_cases h : lexLt b.data a.data = false
  · exact Or.inl h
  · right
    have htrue : lexLt b.data a.data = true := by
      cases hx : lexLt b.data a.data
      · exact absurd hx h
      · rfl
    cases hx : lexLt a.data b.data
    · rfl
    · have := lexLt_trans hx htrue
      rw [lexLt_irrefl] at this
      cases this

lemma sle_trans {a b c : String} (hab : SLe a b) (hbc : SLe b c) : SLe a c := by
  unfold SLe at hab hbc ⊢
  cases hx : lexLt c.data a.data
  · rfl
  · exfalso
    rcases lexLt_tri hab with h' | h'
    · have := lexLt_trans hx h'
      rw [this] at hbc
      cases hbc
    · rw [h'] at hbc
      rw [hx] at hbc
      cases hbc

lemma sle_antisymm {a b : String} (hab : SLe a b) (hba : SLe b a) : a = b := by
  unfold SLe at hab hba
  rcases lexLt_tri hab with h' | h'
  · rw [h'] at hba; cases hba
  · cases a; cases b
    simp_all

instance : IsTotal String SLe := ⟨sle_total⟩

instance : IsTrans String SLe := ⟨fun _ _ _ => sle_trans⟩

instance : IsAntisymm String SLe := ⟨fun _ _ => sle_antisymm⟩

instance : IsRefl String SLe := ⟨fun a => by unfold SLe; exact lexLt_irrefl a.data⟩

/-! ## Cycle resolution (`resolve_cycles`) -/

/-- Ascending lexicographic sort (`sorted` in Python). -/
def sortAsc (l : List String) : List String := l.insertionSort SLe

lemma mem_sortAsc (l : List String) (x : String) : x ∈ sortAsc l ↔ x ∈ l :=
  (List.perm_insertionSort SLe l).mem_iff

lemma lookupG_subset_keys (g : Graph) (hg : Closed g) (n : String) :
    ∀ d ∈ lookupG g n, d ∈ keysOf g := by
  intro d hd
  unfold lookupG at hd
  cases hf : g.find? (fun p => p.1 == n) with
  | none => rw [hf] at hd; cases hd
  | some p =>
    rw [hf] at hd
    exact hg p (List.mem_of_find?_eq_some hf) d hd

/-- On graphs with unique keys, the dependency list of an entry is its stored
list. -/
lemma lookupG_eq_of_mem (g : Graph) (hk : (keysOf g).Nodup) (p : String × List String)
    (hp : p ∈ g) : lookupG g p.1 = p.2 := by
  unfold lookupG
  induction g with
  | nil => cases hp
  | cons q g ih =>
    rcases List.mem_cons.mp hp with rfl | hp'
    · simp [List.find?]
    · have hk' : (q.1 :: keysOf g).Nodup := hk
      have hq : q.1 ≠ p.1 := by
        intro h
        have hmem : p.1 ∈ keysOf g := List.mem_map.mpr ⟨p, hp', rfl⟩
        rw [← h] at hmem
        exact (List.nodup_cons.mp hk').1 hmem
      have hbeq : (q.1 == p.1) = false := beq_eq_false_iff_ne.mpr hq
      simp only [List.find?, hbeq]
      exact ih (List.nodup_cons.mp hk).2 hp'

/-- `new_graph[u].remove(v)` (set removal on the entry of key `u`). -/
def removeEdge (g : Graph) (u v : String) : Graph :=
  g.map (fun p => if p.1 = u then (p.1, p.2.erase v) else p)

/-- First pass over a cycle group: the lexicographically smallest member with a
self-loop, if any (`for u in sorted(scc_set): if u in new_graph.get(u, set())`). -/
def firstSelfLoop (g : Graph) (scc : List String) : Option String :=
  (sortAsc scc.dedup).find? (fun u => decide (u ∈ lookupG g u))

/-- Second pass over a cycle group: the first intra-SCC edge `u→v` in
(lexicographic `u`, then lexicographic `v`) order. -/
def firstIntraEdge (g : Graph) (scc : List String) : Option (String × String) :=
  (sortAsc scc.dedup).findSome? (fun u =>
    ((sortAsc (lookupG g u)).find? (fun w => decide (w ∈ scc.dedup))).map (fun w => (u, w)))

/-- Processing of one cycle group inside a resolution round, threading
`(new_graph, removed_edges_this_round, changed_this_round)`. -/
def processGroup (st : Graph × List (String × String) × Bool) (scc : List String) :
    Graph × List (String × String) × Bool :=
  match firstSelfLoop st.1 scc with
  | some u => (removeEdge st.1 u u, st.2.1 ++ [(u, u)], true)
  | none =>
    if st.2.2 then st
    else
      match firstIntraEdge st.1 scc with
      | some uv => (removeEdge st.1 uv.1 uv.2, st.2.1 ++ [uv], true)
      | none => st

/-- One round of `resolve_cycles`: process every detected cycle group in order. -/
def processCycles (g : Graph) (cycles : List (List String)) :
    Graph × List (String × String) × Bool :=
  cycles.foldl processGroup (g, [], false)

/-- How `resolve_cycles` exited its round loop. -/
inductive ExitTag where
  | noCycles | noProgress | maxRounds
deriving DecidableEq

/-- Result of `resolve_cycles` together with the exit mode and a per-round log
of (cycle groups detected, edges removed). -/
structure ResolveResult where
  graph : Graph
  tag : ExitTag
  log : List (List (List String) × List (String × String))

/-- The round loop of `resolve_cycles`, with one unit of fuel per allowed round. -/
def resolveLoop (fuel : Nat) (g : Graph)
    (log : List (List (List String) × List (String × String))) : ResolveResult :=
  match fuel with
  | 0 => ⟨g, ExitTag.maxRounds, log⟩
  | fuel' + 1 =>
    let cycles := detectCycles g
    if cycles = [] then ⟨g, ExitTag.noCycles, log⟩
    else
      let pc := processCycles g cycles
      if pc.2.2 then resolveLoop fuel' pc.1 (log ++ [(cycles, pc.2.1)])
      else ⟨pc.1, ExitTag.noProgress, log ++ [(cycles, pc.2.1)]⟩

/-- `resolve_cycles` with instrumentation: normalize, then run at most
`max(10, 2 × node_count)` rounds. -/
def resolveCyclesFull (g : Graph) : ResolveResult :=
  let ng := normalizeGraph g
  resolveLoop (max 10 (ng.length * 2)) ng []

/-- `resolve_cycles`: the returned graph. -/
def resolveCycles (g : Graph) : Graph := (resolveCyclesFull g).graph

/-! ## Orderings: `topological_sort` and `dependency_first_dfs` -/

/-- The `dependents` reverse map of `topological_sort`, read at key `n`:
all keys whose dependency set contains `n` (a set in Python, consumed through
`sorted(...)`). -/
def dependentsOf (ag : Graph) (n : String) : List String :=
  sortAsc ((ag.filter (fun p => decide (n ∈ p.2))).map Prod.fst)

/-- Body of the `while heap` loop for one popped node: visit its dependents in
ascending order, decrement their in-degree, and push any that reach zero into
the min-heap (modelled as a sorted list). -/
def drainOne (ag : Graph) (node : String) (heap : List String) (indeg : String → Int) :
    List String × (String → Int) :=
  (dependentsOf ag node).foldl
    (fun hi dependent =>
      let ind2 : String → Int := fun x => if x = dependent then hi.2 dependent - 1 else hi.2 x
      if ind2 dependent = 0 then (hi.1.orderedInsert SLe dependent, ind2)
      else (hi.1, ind2))
    (heap, indeg)

/-- The `while heap` loop of `topological_sort`; fuel is one more than the node
count, which the loop never exhausts (each iteration appends a fresh node). -/
def kahnLoop (ag : Graph) (fuel : Nat) (heap : List String) (indeg : String → Int)
    (res : List String) : List String :=
  match fuel with
  | 0 => res
  | fuel' + 1 =>
    match heap with
    | [] => res
    | node :: rest =>
      let hi := drainOne ag node rest indeg
      kahnLoop ag fuel' hi.1 hi.2 (res ++ [node])

/-- `topological_sort`: resolve cycles, normalize, run Kahn's algorithm with a
lexicographic min-heap, and append any undrained nodes in ascending order. -/
def topologicalSort (g : Graph) : List String :=
  let ag := normalizeGraph (resolveCycles g)
  let indeg0 : String → Int := fun n => ((lookupG ag n).length : Int)
  let heap0 := sortAsc ((keysOf ag).filter (fun n => decide (indeg0 n = 0)))
  let res := kahnLoop ag ((keysOf ag).length + 1) heap0 indeg0 []
  if res.length ≠ (keysOf ag).length then
    res ++ sortAsc ((keysOf ag).filter (fun n => decide (n ∉ res)))
  else res

/-- State of `dependency_first_dfs`: the `visited` and `visiting` sets and the
output list. -/
structure DState where
  visited : List String
  visiting : List String
  result : List String

/-- The inner `dfs` of `dependency_first_dfs` (postorder, successors in
ascending order, with the `visiting` guard); fuel bounds the recursion depth,
which never exceeds the number of nodes plus one. -/
def dfsVisit (ag : Graph) (fuel : Nat) (node : String) (st : DState) : DState :=
  match fuel with
  | 0 => st
  | fuel' + 1 =>
    if node ∈ st.visited then st
    else if node ∈ st.visiting then st
    else
      let st1 : DState := { st with visiting := node :: st.visiting }
      let st2 := (sortAsc (lookupG ag node)).foldl (fun s d => dfsVisit ag fuel' d s) st1
      { st2 with
        visiting := st2.visiting.erase node
        visited := node :: st2.visited
        result := st2.result ++ [node] }

/-- `dependency_first_dfs`: resolve cycles, normalize, then DFS from every node
in ascending order. -/
def dependencyFirstDfs (g : Graph) : List String :=
  let ag := normalizeGraph (resolveCycles g)
  ((sortAsc (keysOf ag)).foldl (fun st n => dfsVisit ag ((keysOf ag).length + 1) n st)
    ⟨[], [], []⟩).result

/-- `x` appears strictly before `y` in the list `l`. -/
def precedes (l : List String) (x y : String) : Prop :=
  x ∈ l ∧ y ∈ l ∧ l.indexOf x < l.indexOf y

instance (l : List String) (x y : String) : Decidable (precedes l x y) :=
  inferInstanceAs (Decidable (x ∈ l ∧ y ∈ l ∧ l.indexOf x < l.indexOf y))

/-! ## Reachability and acyclicity -/

/-- One dependency edge: `b ∈ graph[a]`. -/
def StepRel (ag : Graph) (a b : String) : Prop := b ∈ lookupG ag a

/-- `b` is reachable from `a` along one or more dependency edges. -/
def Reaches (ag : Graph) : String → String → Prop := Relation.TransGen (StepRel ag)

/-- The graph has no (non-empty) cycle. -/
def Acyclic (ag : Graph) : Prop := ∀ n, ¬ Reaches ag n n

/-- A strictly edge-decreasing rank function certifies acyclicity (used to
discharge `Acyclic` on concrete graphs). -/
lemma acyclic_of_rank (ag : Graph) (rank : String → Nat)
    (h : ∀ a b, StepRel ag a b → rank b < rank a) : Acyclic ag := by
  intro n hn
  have hall : ∀ a b, Reaches ag a b → rank b < rank a := by
    intro a b hab
    induction hab with
    | single h' => exact h _ _ h'
    | tail _ h' ih => exact lt_trans (h _ _ h') ih
  exact lt_irrefl _ (hall n n hn)

lemma lookupG_ne_nil_mem_keys (g : Graph) (a : String) (h : lookupG g a ≠ []) :
    a ∈ keysOf g := by
  unfold lookupG at h
  cases hf : g.find? (fun p => p.1 == a) with
  | none => rw [hf] at h; exact absurd rfl h
  | some p =>
    have hpa : p.1 = a := by
      have := List.find?_some hf
      exact of_decide_eq_true (by simpa using this)
    exact hpa ▸ List.mem_map.mpr ⟨p, List.mem_of_find?_eq_some hf, rfl⟩

/-- Pigeonhole: a non-empty finite set in which every member has a successor
inside the set contains a cycle. -/
lemma cycle_of_closed_succ (ag : Graph) (T : List String) (hT : T ≠ [])
    (hsucc : ∀ n ∈ T, ∃ d, StepRel ag n d ∧ d ∈ T) : ∃ n, Reaches ag n n := by
  classical
  obtain ⟨t0, ht0⟩ := List.exists_mem_of_ne_nil T hT
  -- successor choice function on the subtype of members of T
  have hf : ∀ x : {x // x ∈ T}, ∃ y : {x // x ∈ T}, StepRel ag x.1 y.1 := by
    rintro ⟨x, hx⟩
    obtain ⟨d, hd, hdT⟩ := hsucc x hx
    exact ⟨⟨d, hdT⟩, hd⟩
  choose f hstep using hf
  haveI : Fintype {x // x ∈ T} := by
    refine Fintype.ofSurjective
      (fun i : Fin T.length => (⟨T.get i, List.get_mem T i.1 i.2⟩ : {x // x ∈ T})) ?_
    rintro ⟨x, hx⟩
    obtain ⟨i, hi⟩ := List.get_of_mem hx
    exact ⟨i, by simpa using hi⟩
  -- iterate f; pigeonhole gives a repeat
  have hcard : Fintype.card {x // x ∈ T} < (Finset.range (Fintype.card {x // x ∈ T} + 1)).card := by
    simp
  obtain ⟨i, hi, j, hj, hne, heq⟩ :=
    Finset.exists_ne_map_eq_of_card_lt_of_maps_to hcard
      (fun i _ => Finset.mem_univ (f^[i] ⟨t0, ht0⟩))
  -- reaches along iterates
  have hreach : ∀ (k : Nat) (x : {x // x ∈ T}), 0 < k → Reaches ag x.1 (f^[k] x).1 := by
    intro k
    induction k with
    | zero => intro x h; omega
    | succ k ihk =>
      intro x _
      rcases Nat.eq_zero_or_pos k with hk | hk
      · subst hk
        simpa [Function.iterate_one] using Relation.TransGen.single (hstep x)
      · have h1 : Reaches ag x.1 (f^[k] x).1 := ihk x hk
        have h2 : StepRel ag (f^[k] x).1 (f (f^[k] x)).1 := hstep _
        rw [Function.iterate_succ_apply']
        exact Relation.TransGen.tail h1 h2
  rcases Nat.lt_or_ge i j with hij | hij
  · have : Reaches ag (f^[i] ⟨t0, ht0⟩).1 (f^[j - i] (f^[i] ⟨t0, ht0⟩)).1 :=
      hreach (j - i) _ (by omega)
    rw [← Function.iterate_add_apply] at this
    have hadd : j - i + i = j := by omega
    rw [hadd, ← heq] at this
    exact ⟨_, this⟩
  · have hji : j < i := lt_of_le_of_ne hij (fun h => hne h.symm)
    have : Reaches ag (f^[j] ⟨t0, ht0⟩).1 (f^[i - j] (f^[j] ⟨t0, ht0⟩)).1 :=
      hreach (i - j) _ (by omega)
    rw [← Function.iterate_add_apply] at this
    have hadd : i - j + j = i := by omega
    rw [hadd, heq] at this
    exact ⟨_, this⟩

/-! ## Structural lemmas about the resolver (claim C9) -/

lemma keysOf_removeEdge (g : Graph) (u v : String) :
    keysOf (removeEdge g u v) = keysOf g := by
  unfold keysOf removeEdge
  rw [List.map_map]
  apply List.map_congr_left
  intro p _
  by_cases h : p.1 = u <;> simp [h]

lemma lookupG_removeEdge (g : Graph) (u v n : String) :
    lookupG (removeEdge g u v) n =
      if n = u then (lookupG g n).erase v else lookupG g n := by
  unfold lookupG removeEdge
  induction g with
  | nil => by_cases h : n = u <;> simp [h]
  | cons p g ih =>
    by_cases hp : p.1 = n
    · subst hp
      by_cases hu : p.1 = u
      · simp [List.find?, hu, beq_self_eq_true]
      · simp [List.find?, hu, beq_self_eq_true, if_neg hu]
    · have hbeq : (p.1 == n) = false := beq_eq_false_iff_ne.mpr hp
      by_cases hu : p.1 = u
      · subst hu
        simp only [List.map_cons, if_pos rfl, List.find?]
        rw [hbeq]
        simpa [hbeq] using ih
      · simp only [List.map_cons, if_neg hu, List.find?]
        rw [hbeq]
        simpa [hbeq] using ih

lemma lookupG_removeEdge_subset (g : Graph) (u v n : String) :
    ∀ x, x ∈ lookupG (removeEdge g u v) n → x ∈ lookupG g n := by
  intro x hx
  rw [lookupG_removeEdge] at hx
  by_cases h : n = u
  · rw [if_pos h] at hx
    exact (lookupG g n).erase_subset _ hx
  · rwa [if_neg h] at hx

lemma keysOf_processGroup (st : Graph × List (String × String) × Bool) (scc : List String) :
    keysOf (processGroup st scc).1 = keysOf st.1 := by
  unfold processGroup
  cases hsl : firstSelfLoop st.1 scc with
  | some u => simp [keysOf_removeEdge]
  | none =>
    simp only
    by_cases hc : st.2.2
    · simp [hc]
    · simp only [hc, if_false]
      cases hie : firstIntraEdge st.1 scc with
      | some uv => simp [keysOf_removeEdge]
      | none => simp

lemma lookup_processGroup_subset (st : Graph × List (String × String) × Bool)
    (scc : List String) :
    ∀ n x, x ∈ lookupG (processGroup st scc).1 n → x ∈ lookupG st.1 n := by
  intro n x
  unfold processGroup
  cases hsl : firstSelfLoop st.1 scc with
  | some u => exact fun hx => lookupG_removeEdge_subset _ _ _ _ _ hx
  | none =>
    simp only
    by_cases hc : st.2.2
    · simp only [hc, if_true]
      exact fun hx => hx
    · simp only [hc, if_false]
      cases hie : firstIntraEdge st.1 scc with
      | some uv => exact fun hx => lookupG_removeEdge_subset _ _ _ _ _ hx
      | none => exact fun hx => hx

lemma keysOf_processCycles_fold (cycles : List (List String)) :
    ∀ st : Graph × List (String × String) × Bool,
      keysOf (cycles.foldl processGroup st).1 = keysOf st.1 := by
  induction cycles with
  | nil => intro st; rfl
  | cons c cs ih =>
    intro st
    simp only [List.foldl_cons]
    rw [ih (processGroup st c), keysOf_processGroup]

lemma lookup_processCycles_fold_subset (cycles : List (List String)) :
    ∀ (st : Graph × List (String × String) × Bool) (n x : String),
      x ∈ lookupG (cycles.foldl processGroup st).1 n → x ∈ lookupG st.1 n := by
  induction cycles with
  | nil => intro st n x hx; exact hx
  | cons c cs ih =>
    intro st n x hx
    exact lookup_processGroup_subset st c n x (ih (processGroup st c) n x hx)

lemma keysOf_resolveLoop (fuel : Nat) :
    ∀ (g : Graph) (log : List (List (List String) × List (String × String))),
      keysOf (resolveLoop fuel g log).graph = keysOf g := by
  induction fuel with
  | zero => intro g log; rfl
  | succ fuel ih =>
    intro g log
    unfold resolveLoop
    by_cases hc : detectCycles g = []
    · simp [hc]
    · simp only [hc, if_false]
      by_cases hch : (processCycles g (detectCycles g)).2.2
      · simp only [hch, if_true]
        rw [ih]
        exact keysOf_processCycles_fold _ _
      · simp only [hch, if_false]
        exact keysOf_processCycles_fold _ _

lemma lookup_resolveLoop_subset (fuel : Nat) :
    ∀ (g : Graph) (log : List (List (List String) × List (String × String))) (n x : String),
      x ∈ lookupG (resolveLoop fuel g log).graph n → x ∈ lookupG g n := by
  induction fuel with
  | zero => intro g log n x hx; exact hx
  | succ fuel ih =>
    intro g log n x
    unfold resolveLoop
    by_cases hc : detectCycles g = []
    · simp only [hc, if_true]
      exact fun hx => hx
    · simp only [hc, if_false]
      by_cases hch : (processCycles g (detectCycles g)).2.2
      · simp only [hch, if_true]
        intro hx
        exact lookup_processCycles_fold_subset _ _ n x (ih _ _ n x hx)
      · simp only [hch, if_false]
        exact fun hx => lookup_processCycles_fold_subset _ _ n x hx

/-! ## Kahn's algorithm: loop invariant -/

/-- Number of dependencies of `n` not yet emitted (`in_degree[n]` tracks this). -/
def remCount (ag : Graph) (res : List String) (n : String) : Nat :=
  ((lookupG ag n).filter (fun d => decide (d ∉ res))).length

/-- Every emitted node's dependencies were emitted strictly before it. -/
def PrefClosed (ag : Graph) (res : List String) : Prop :=
  ∀ (i : Nat) (hi : i < res.length), ∀ d ∈ lookupG ag (res.get ⟨i, hi⟩), d ∈ res.take i

/-- Invariant of the `while heap` loop of `topological_sort`. -/
structure KInv (ag : Graph) (heap : List String) (indeg : String → Int)
    (res : List String) : Prop where
  resN : res.Nodup
  resK : ∀ n ∈ res, n ∈ keysOf ag
  resC : PrefClosed ag res
  heapN : heap.Nodup
  heapK : ∀ n ∈ heap, n ∈ keysOf ag
  heapD : ∀ n ∈ heap, n ∉ res
  ispec : ∀ n ∈ keysOf ag, indeg n = (remCount ag res n : Int)
  hmem : ∀ n ∈ keysOf ag, n ∉ res → n ∉ heap → indeg n ≠ 0
  hzero : ∀ n ∈ heap, indeg n = 0

lemma mem_orderedInsert_sle (l : List String) (a x : String) :
    x ∈ l.orderedInsert SLe a ↔ x = a ∨ x ∈ l := by
  rw [(List.perm_orderedInsert SLe a l).mem_iff]
  exact List.mem_cons

lemma nodup_orderedInsert_sle (l : List String) (a : String) (h : l.Nodup) (ha : a ∉ l) :
    (l.orderedInsert SLe a).Nodup :=
  (List.perm_orderedInsert SLe a l).nodup_iff.mpr (List.nodup_cons.mpr ⟨ha, h⟩)

lemma remCount_append_mem (l : List String) (res : List String) (node : String)
    (hl : l.Nodup) (hmem : node ∈ l) (hres : node ∉ res) :
    (l.filter (fun d => decide (d ∉ res ++ [node]))).length + 1 =
      (l.filter (fun d => decide (d ∉ res))).length := by
  induction l with
  | nil => cases hmem
  | cons a l ih =>
    have hln : l.Nodup := (List.nodup_cons.mp hl).2
    by_cases han : a = node
    · subst han
      have hna : a ∉ l := (List.nodup_cons.mp hl).1
      have h1 : (decide (a ∉ res ++ [a])) = false := by simp
      have h2 : (decide (a ∉ res)) = true := by simp [hres]
      rw [List.filter_cons, List.filter_cons, h1, h2]
      rw [if_neg (by decide : ¬ (false = true)), if_pos (rfl : true = true)]
      simp only [List.length_cons]
      have : ∀ m : List String, a ∉ m →
          m.filter (fun d => decide (d ∉ res ++ [a])) = m.filter (fun d => decide (d ∉ res)) := by
        intro m
        induction m with
        | nil => intro _; rfl
        | cons b m ihm =>
          intro hbm
          have hba : b ≠ a := fun h => hbm (h ▸ List.mem_cons_self _ _)
          have : (decide (b ∉ res ++ [a])) = (decide (b ∉ res)) := by
            rw [decide_eq_decide]
            simp [List.mem_append, hba]
          rw [List.filter_cons, List.filter_cons, this]
          by_cases hb : (decide (b ∉ res)) = true
          · rw [hb]
            simp only [if_true]
            rw [ihm (fun h => hbm (List.mem_cons_of_mem _ h))]
          · have : (decide (b ∉ res)) = false := by
              cases hx : (decide (b ∉ res))
              · rfl
              · exact absurd hx hb
            rw [this]
            rw [if_neg (by decide : ¬ (false = true))]
            exact ihm (fun h => hbm (List.mem_cons_of_mem _ h))
      rw [this l hna]
    · have hmem' : node ∈ l := by
        rcases List.mem_cons.mp hmem with h | h
        · exact absurd h.symm han
        · exact h
      have : (decide (a ∉ res ++ [node])) = (decide (a ∉ res)) := by
        rw [decide_eq_decide]
        simp [List.mem_append, han]
      rw [List.filter_cons, List.filter_cons, this]
      by_cases hb : (decide (a ∉ res)) = true
      · rw [hb]
        have := ih hln hmem'
        simp only [if_true, List.length_cons]
        omega
      · have hbf : (decide (a ∉ res)) = false := by
          cases hx : (decide (a ∉ res))
          · rfl
          · exact absurd hx hb
        rw [hbf]
        rw [if_neg (by decide : ¬ (false = true))]
        exact ih hln hmem'

lemma remCount_append_not_mem (l : List String) (res : List String) (node : String)
    (hmem : node ∉ l) :
    l.filter (fun d => decide (d ∉ res ++ [node])) = l.filter (fun d => decide (d ∉ res)) := by
  induction l with
  | nil => rfl
  | cons b l ihm =>
    have hba : b ≠ node := fun h => hmem (h ▸ List.mem_cons_self _ _)
    have heq : (decide (b ∉ res ++ [node])) = (decide (b ∉ res)) := by
      rw [decide_eq_decide]
      simp [List.mem_append, hba]
    rw [List.filter_cons, List.filter_cons, heq]
    by_cases hb : (decide (b ∉ res)) = true
    · rw [hb]
      simp only [if_true]
      rw [ihm (fun h => hmem (List.mem_cons_of_mem _ h))]
    · have : (decide (b ∉ res)) = false := by
        cases hx : (decide (b ∉ res))
        · rfl
        · exact absurd hx hb
      rw [this]
      rw [if_neg (by decide : ¬ (false = true))]
      exact ihm (fun h => hmem (List.mem_cons_of_mem _ h))

lemma remCount_pos (ag : Graph) (res : List String) (n node : String)
    (h1 : node ∈ lookupG ag n) (h2 : node ∉ res) : 0 < remCount ag res n := by
  unfold remCount
  have : node ∈ (lookupG ag n).filter (fun d => decide (d ∉ res)) :=
    List.mem_filter.mpr ⟨h1, by simp [h2]⟩
  exact List.length_pos.mpr (List.ne_nil_of_mem this)

lemma remCount_zero_deps (ag : Graph) (res : List String) (n : String)
    (h : remCount ag res n = 0) : ∀ d ∈ lookupG ag n, d ∈ res := by
  intro d hd
  unfold remCount at h
  rw [List.length_eq_zero] at h
  by_contra hdres
  have : d ∈ (lookupG ag n).filter (fun d => decide (d ∉ res)) :=
    List.mem_filter.mpr ⟨hd, by simp [hdres]⟩
  rw [h] at this
  cases this

/-- One step of the dependents loop in `topological_sort` (identical to the
fold body of `drainOne`). -/
def drainStep (hi : List String × (String → Int)) (dependent : String) :
    List String × (String → Int) :=
  let ind2 : String → Int := fun x => if x = dependent then hi.2 dependent - 1 else hi.2 x
  if ind2 dependent = 0 then (hi.1.orderedInsert SLe dependent, ind2) else (hi.1, ind2)

lemma drainOne_eq (ag : Graph) (node : String) (heap : List String) (indeg : String → Int) :
    drainOne ag node heap indeg = (dependentsOf ag node).foldl drainStep (heap, indeg) := rfl

lemma drainStep_snd (hi : List String × (String → Int)) (d : String) :
    (drainStep hi d).2 = fun x => if x = d then hi.2 d - 1 else hi.2 x := by
  simp only [drainStep]
  rw [apply_ite Prod.snd, ite_self]

lemma drainStep_fst_pos (hi : List String × (String → Int)) (d : String)
    (h : hi.2 d - 1 = 0) : (drainStep hi d).1 = hi.1.orderedInsert SLe d := by
  simp only [drainStep]
  rw [if_pos (by simpa using h)]

lemma drainStep_fst_neg (hi : List String × (String → Int)) (d : String)
    (h : ¬ hi.2 d - 1 = 0) : (drainStep hi d).1 = hi.1 := by
  simp only [drainStep]
  rw [if_neg (by simpa using h)]

/-- Effect of the whole dependents loop: every processed dependent's in-degree
drops by one, and exactly those reaching zero are pushed into the heap. -/
lemma drainFold (ds : List String) :
    ds.Nodup →
    ∀ (h0 : List String) (ind0 : String → Int),
      (∀ n, ((ds.foldl drainStep (h0, ind0)).2) n = if n ∈ ds then ind0 n - 1 else ind0 n) ∧
      (∀ x, x ∈ (ds.foldl drainStep (h0, ind0)).1 ↔
        x ∈ h0 ∨ (x ∈ ds ∧ ind0 x - 1 = 0)) ∧
      (h0.Nodup → (∀ x ∈ ds, x ∉ h0) → (ds.foldl drainStep (h0, ind0)).1.Nodup) := by
  induction ds with
  | nil =>
    intro _ h0 ind0
    exact ⟨fun n => by simp, fun x => by simp, fun h _ => h⟩
  | cons d ds ih =>
    intro hnd h0 ind0
    have hdds : d ∉ ds := (List.nodup_cons.mp hnd).1
    have hnd' : ds.Nodup := (List.nodup_cons.mp hnd).2
    simp only [List.foldl_cons]
    have hpair : drainStep (h0, ind0) d =
        ((drainStep (h0, ind0) d).1, fun x => if x = d then ind0 d - 1 else ind0 x) := by
      rw [← drainStep_snd (h0, ind0) d]
    rw [hpair]
    set ind1 : String → Int := fun x => if x = d then ind0 d - 1 else ind0 x with hind1
    set h1 : List String := (drainStep (h0, ind0) d).1 with hh1
    obtain ⟨ha, hb, hc⟩ := ih hnd' h1 ind1
    have hind1d : ind1 d = ind0 d - 1 := by simp [hind1]
    have hind1ne : ∀ x, x ≠ d → ind1 x = ind0 x := by
      intro x hx
      simp [hind1, hx]
    refine ⟨?_, ?_, ?_⟩
    · intro n
      rw [ha n]
      by_cases hn : n = d
      · subst hn
        rw [if_neg (fun h => hdds h), if_pos (List.mem_cons_self _ _), hind1d]
      · rw [hind1ne n hn]
        by_cases hns : n ∈ ds
        · rw [if_pos hns, if_pos (List.mem_cons_of_mem _ hns)]
        · rw [if_neg hns, if_neg (fun h => by
            rcases List.mem_cons.mp h with h | h
            · exact hn h
            · exact hns h)]
    · intro x
      rw [hb x]
      by_cases hz : ind0 d - 1 = 0
      · have hfst : h1 = h0.orderedInsert SLe d := drainStep_fst_pos (h0, ind0) d hz
        rw [hfst, mem_orderedInsert_sle]
        constructor
        · rintro ((rfl | hx) | ⟨hxds, hxz⟩)
          · exact Or.inr ⟨List.mem_cons_self _ _, hz⟩
          · exact Or.inl hx
          · have hxd : x ≠ d := fun h => hdds (h ▸ hxds)
            rw [hind1ne x hxd] at hxz
            exact Or.inr ⟨List.mem_cons_of_mem _ hxds, hxz⟩
        · rintro (hx | ⟨hxcons, hxz⟩)
          · exact Or.inl (Or.inr hx)
          · rcases List.mem_cons.mp hxcons with rfl | hxds
            · exact Or.inl (Or.inl rfl)
            · have hxd : x ≠ d := fun h => hdds (h ▸ hxds)
              right
              exact ⟨hxds, by rw [hind1ne x hxd]; exact hxz⟩
      · have hfst : h1 = h0 := drainStep_fst_neg (h0, ind0) d hz
        rw [hfst]
        constructor
        · rintro (hx | ⟨hxds, hxz⟩)
          · exact Or.inl hx
          · have hxd : x ≠ d := fun h => hdds (h ▸ hxds)
            rw [hind1ne x hxd] at hxz
            exact Or.inr ⟨List.mem_cons_of_mem _ hxds, hxz⟩
        · rintro (hx | ⟨hxcons, hxz⟩)
          · exact Or.inl hx
          · rcases List.mem_cons.mp hxcons with rfl | hxds
            · exact absurd hxz hz
            · have hxd : x ≠ d := fun h => hdds (h ▸ hxds)
              right
              exact ⟨hxds, by rw [hind1ne x hxd]; exact hxz⟩
    · intro h0nd hdisj
      apply hc
      · by_cases hz : ind0 d - 1 = 0
        · rw [hh1, drainStep_fst_pos (h0, ind0) d hz]
          exact nodup_orderedInsert_sle h0 d h0nd (hdisj d (List.mem_cons_self _ _))
        · rw [hh1, drainStep_fst_neg (h0, ind0) d hz]
          exact h0nd
      · intro x hx
        by_cases hz : ind0 d - 1 = 0
        · rw [hh1, drainStep_fst_pos (h0, ind0) d hz, mem_orderedInsert_sle]
          rintro (rfl | hxh0)
          · exact hdds hx
          · exact hdisj x (List.mem_cons_of_mem _ hx) hxh0
        · rw [hh1, drainStep_fst_neg (h0, ind0) d hz]
          exact hdisj x (List.mem_cons_of_mem _ hx)

lemma lookupG_nodup (ag : Graph) (hdn : ∀ p ∈ ag, p.2.Nodup) (n : String) :
    (lookupG ag n).Nodup := by
  unfold lookupG
  cases hf : ag.find? (fun p => p.1 == n) with
  | none => exact List.nodup_nil
  | some p => exact hdn p (List.mem_of_find?_eq_some hf)

lemma mem_dependentsOf (ag : Graph) (hk : (keysOf ag).Nodup) (node x : String) :
    x ∈ dependentsOf ag node ↔ x ∈ keysOf ag ∧ node ∈ lookupG ag x := by
  unfold dependentsOf
  rw [mem_sortAsc, List.mem_map]
  constructor
  · rintro ⟨p, hp, rfl⟩
    have hpg : p ∈ ag := (List.mem_filter.mp hp).1
    have hnode : node ∈ p.2 := of_decide_eq_true (List.mem_filter.mp hp).2
    refine ⟨List.mem_map.mpr ⟨p, hpg, rfl⟩, ?_⟩
    rw [lookupG_eq_of_mem ag hk p hpg]
    exact hnode
  · rintro ⟨hxk, hnode⟩
    obtain ⟨p, hp, rfl⟩ := List.mem_map.mp hxk
    refine ⟨p, List.mem_filter.mpr ⟨hp, ?_⟩, rfl⟩
    rw [lookupG_eq_of_mem ag hk p hp] at hnode
    exact decide_eq_true hnode

lemma nodup_dependentsOf (ag : Graph) (hk : (keysOf ag).Nodup) (node : String) :
    (dependentsOf ag node).Nodup := by
  unfold dependentsOf
  have h1 : (ag.filter (fun p => decide (node ∈ p.2))).Sublist ag := List.filter_sublist _
  have h2 := h1.map Prod.fst
  exact (List.perm_insertionSort SLe _).nodup_iff.mpr (h2.nodup hk)

lemma indexOf_lt_of_mem_take (l : List String) :
    ∀ (i : Nat) (b : String), b ∈ l.take i → l.indexOf b < i := by
  induction l with
  | nil => intro i b hb; simp at hb
  | cons c l ih =>
    intro i b hb
    cases i with
    | zero => simp at hb
    | succ j =>
      rw [List.take_succ_cons] at hb
      by_cases hbc : b = c
      · subst hbc
        rw [List.indexOf_cons_self]
        omega
      · have hbl : b ∈ l.take j := by
          rcases List.mem_cons.mp hb with h | h
          · exact absurd h hbc
          · exact h
        have := ih j b hbl
        have hbeq : (c == b) = false := beq_eq_false_iff_ne.mpr (fun h => hbc h.symm)
        rw [List.indexOf_cons, hbeq]
        simp only [cond_false]
        omega

/-- Main invariant-preservation lemma for the `while heap` loop of
`topological_sort`. -/
lemma kahnLoop_post (ag : Graph) (hkn : (keysOf ag).Nodup) (hcl : Closed ag)
    (hdn : ∀ p ∈ ag, p.2.Nodup) :
    ∀ (fuel : Nat) (heap : List String) (indeg : String → Int) (res : List String),
      KInv ag heap indeg res →
      (keysOf ag).length + 1 ≤ fuel + res.length →
      (∃ ext, kahnLoop ag fuel heap indeg res = res ++ ext) ∧
        (kahnLoop ag fuel heap indeg res).Nodup ∧
        (∀ n ∈ kahnLoop ag fuel heap indeg res, n ∈ keysOf ag) ∧
        PrefClosed ag (kahnLoop ag fuel heap indeg res) ∧
        (∀ n ∈ keysOf ag, n ∉ kahnLoop ag fuel heap indeg res →
          ∃ d ∈ lookupG ag n, d ∉ kahnLoop ag fuel heap indeg res) := by
  intro fuel
  induction fuel with
  | zero =>
    intro heap indeg res inv hineq
    exfalso
    have h1 : res.toFinset.card = res.length := List.toFinset_card_of_nodup inv.resN
    have h2 : res.toFinset ⊆ (keysOf ag).toFinset := by
      intro x hx
      exact List.mem_toFinset.mpr (inv.resK x (List.mem_toFinset.mp hx))
    have h3 := Finset.card_le_card h2
    have h4 := List.toFinset_card_le (keysOf ag)
    omega
  | succ fuel ih =>
    intro heap indeg res inv hineq
    match hheap : heap with
    | [] =>
      have hout : kahnLoop ag (fuel + 1) [] indeg res = res := rfl
      rw [hout]
      refine ⟨⟨[], by simp⟩, inv.resN, inv.resK, inv.resC, ?_⟩
      intro n hn hnres
      have hne := inv.hmem n hn hnres (by simp)
      rw [inv.ispec n hn] at hne
      have hcount : remCount ag res n ≠ 0 := by
        intro h
        rw [h] at hne
        exact hne rfl
      have hpos : 0 < remCount ag res n := Nat.pos_of_ne_zero hcount
      unfold remCount at hpos
      obtain ⟨d, hd⟩ :=
        List.exists_mem_of_ne_nil _ (List.ne_nil_of_length_pos hpos)
      have hdl := List.mem_filter.mp hd
      exact ⟨d, hdl.1, of_decide_eq_true hdl.2⟩
    | node :: rest =>
      have hout : kahnLoop ag (fuel + 1) (node :: rest) indeg res =
          kahnLoop ag fuel (drainOne ag node rest indeg).1 (drainOne ag node rest indeg).2
            (res ++ [node]) := rfl
      rw [hout]
      -- basic facts about the popped node
      have f1 : node ∈ keysOf ag := inv.heapK node (List.mem_cons_self _ _)
      have f2 : node ∉ res := inv.heapD node (List.mem_cons_self _ _)
      have f2b : node ∉ rest := (List.nodup_cons.mp inv.heapN).1
      have frestN : rest.Nodup := (List.nodup_cons.mp inv.heapN).2
      have f3 : indeg node = 0 := inv.hzero node (List.mem_cons_self _ _)
      have f3b : remCount ag res node = 0 := by
        have := inv.ispec node f1
        rw [f3] at this
        exact_mod_cast this.symm
      have f3c : ∀ d ∈ lookupG ag node, d ∈ res := remCount_zero_deps ag res node f3b
      set D := dependentsOf ag node with hD
      have hDnodup : D.Nodup := nodup_dependentsOf ag hkn node
      have hDmem : ∀ x, x ∈ D ↔ x ∈ keysOf ag ∧ node ∈ lookupG ag x := fun x =>
        mem_dependentsOf ag hkn node x
      have f5a : ∀ x ∈ D, x ∉ res := by
        intro x hx hxres
        obtain ⟨i, hgi⟩ := List.mem_iff_get.mp hxres
        have hnode := ((hDmem x).mp hx).2
        rw [← hgi] at hnode
        have := inv.resC i.1 i.2 node (by simpa using hnode)
        exact f2 (List.take_subset _ _ this)
      have f5b : ∀ x ∈ D, x ≠ node := by
        intro x hx hxn
        have hnode := ((hDmem x).mp hx).2
        rw [hxn] at hnode
        exact f2 (f3c node hnode)
      have f6 : ∀ x ∈ D, indeg x ≠ 0 := by
        intro x hx
        have hxk := ((hDmem x).mp hx).1
        have hnode := ((hDmem x).mp hx).2
        have hpos : 0 < remCount ag res x := remCount_pos ag res x node hnode f2
        rw [inv.ispec x hxk]
        intro h
        have : remCount ag res x = 0 := by exact_mod_cast h
        omega
      have f7 : ∀ x ∈ D, x ∉ rest := by
        intro x hx hxrest
        exact f6 x hx (inv.hzero x (List.mem_cons_of_mem _ hxrest))
      -- the drain fold
      obtain ⟨ha, hb, hc⟩ := drainFold D hDnodup rest indeg
      rw [drainOne_eq]
      set hi1 := (D.foldl drainStep (rest, indeg)).1 with hhi1
      set hi2 := (D.foldl drainStep (rest, indeg)).2 with hhi2
      -- new invariant
      have hresN' : (res ++ [node]).Nodup := by
        refine List.Nodup.append inv.resN (List.nodup_singleton node) ?_
        intro x hx hx'
        rw [List.mem_singleton] at hx'
        subst hx'
        exact f2 hx
      have hinv' : KInv ag hi1 hi2 (res ++ [node]) := by
        refine ⟨hresN', ?_, ?_, ?_, ?_, ?_, ?_, ?_, ?_⟩
        · intro n hn
          rcases List.mem_append.mp hn with h | h
          · exact inv.resK n h
          · rw [List.mem_singleton] at h
            subst h
            exact f1
        · -- prefix closure
          intro i hi d hd
          have hi' : i < res.length + 1 := by simpa using hi
          rcases Nat.lt_or_ge i res.length with hilt | hige
          · have hget : (res ++ [node]).get ⟨i, hi⟩ = res.get ⟨i, hilt⟩ := by
              simp [List.get_eq_getElem, List.getElem_append_left hilt]
            rw [hget] at hd
            have hmem := inv.resC i hilt d hd
            rw [List.take_append_eq_append_take]
            exact List.mem_append.mpr (Or.inl hmem)
          · have hieq : i = res.length := by omega
            subst hieq
            have hget : (res ++ [node]).get ⟨res.length, hi⟩ = node := by
              simp
            rw [hget] at hd
            rw [List.take_left]
            exact f3c d hd
        · -- heap nodup
          exact hc frestN f7
        · -- heap ⊆ keys
          intro x hx
          rcases (hb x).mp hx with h | h
          · exact inv.heapK x (List.mem_cons_of_mem _ h)
          · exact ((hDmem x).mp h.1).1
        · -- heap disjoint from res'
          intro x hx hxres
          rcases (hb x).mp hx with h | h
          · rcases List.mem_append.mp hxres with h' | h'
            · exact inv.heapD x (List.mem_cons_of_mem _ h) h'
            · rw [List.mem_singleton] at h'
              subst h'
              exact f2b h
          · rcases List.mem_append.mp hxres with h' | h'
            · exact f5a x h.1 h'
            · rw [List.mem_singleton] at h'
              exact f5b x h.1 h'
        · -- in-degree spec
          intro n hn
          rw [ha n]
          by_cases hnD : n ∈ D
          · rw [if_pos hnD]
            have hnode := ((hDmem n).mp hnD).2
            have hcount := remCount_append_mem (lookupG ag n) res node
              (lookupG_nodup ag hdn n) hnode f2
            have hspec := inv.ispec n hn
            unfold remCount at hcount ⊢
            rw [hspec]
            unfold remCount
            push_cast
            omega
          · rw [if_neg hnD]
            have hnonode : node ∉ lookupG ag n := by
              intro h
              exact hnD ((hDmem n).mpr ⟨hn, h⟩)
            have hcount := remCount_append_not_mem (lookupG ag n) res node hnonode
            rw [inv.ispec n hn]
            unfold remCount
            rw [hcount]
        · -- heap completeness
          intro n hn hnres hnheap
          have hnres0 : n ∉ res := fun h => hnres (List.mem_append.mpr (Or.inl h))
          have hnnode : n ≠ node := fun h =>
            hnres (List.mem_append.mpr (Or.inr (List.mem_singleton.mpr h)))
          rw [ha n]
          by_cases hnD : n ∈ D
          · rw [if_pos hnD]
            intro h
            exact hnheap ((hb n).mpr (Or.inr ⟨hnD, h⟩))
          · rw [if_neg hnD]
            have hnrest : n ∉ rest := fun h => hnheap ((hb n).mpr (Or.inl h))
            have hnh : n ∉ node :: rest := by
              intro h
              rcases List.mem_cons.mp h with h | h
              · exact hnnode h
              · exact hnrest h
            exact inv.hmem n hn hnres0 hnh
        · -- heap zero
          intro x hx
          rw [ha x]
          rcases (hb x).mp hx with h | h
          · have hxz := inv.hzero x (List.mem_cons_of_mem _ h)
            have hxD : x ∉ D := fun hxD => f6 x hxD hxz
            rw [if_neg hxD]
            exact hxz
          · rw [if_pos h.1]
            exact h.2
      have hineq' : (keysOf ag).length + 1 ≤ fuel + (res ++ [node]).length := by
        rw [List.length_append, List.length_singleton]
        omega
      obtain ⟨⟨ext, hext⟩, hnd, hkeys, hpc, hcompl⟩ := ih hi1 hi2 (res ++ [node]) hinv' hineq'
      refine ⟨⟨node :: ext, ?_⟩, hnd, hkeys, hpc, hcompl⟩
      rw [hext, List.append_assoc]
      rfl

/-- The drained part of `topological_sort` (the `while heap` loop's output). -/
def kahnOut (ag : Graph) : List String :=
  kahnLoop ag ((keysOf ag).length + 1)
    (sortAsc ((keysOf ag).filter (fun n => decide ((((lookupG ag n).length : Int)) = 0))))
    (fun n => ((lookupG ag n).length : Int)) []

lemma topologicalSort_eq_kahnOut (g : Graph) :
    topologicalSort g =
      (if (kahnOut (normalizeGraph (resolveCycles g))).length ≠
          (keysOf (normalizeGraph (resolveCycles g))).length
       then kahnOut (normalizeGraph (resolveCycles g)) ++
         sortAsc ((keysOf (normalizeGraph (resolveCycles g))).filter
           (fun n => decide (n ∉ kahnOut (normalizeGraph (resolveCycles g)))))
       else kahnOut (normalizeGraph (resolveCycles g))) := rfl

/-- The initial state of Kahn's loop satisfies the invariant, so its output is
a duplicate-free, prefix-closed list of keys whose leftovers all retain an
unemitted dependency. -/
lemma kahnOut_spec (ag : Graph) (hkn : (keysOf ag).Nodup) (hcl : Closed ag)
    (hdn : ∀ p ∈ ag, p.2.Nodup) :
    (kahnOut ag).Nodup ∧ (∀ n ∈ kahnOut ag, n ∈ keysOf ag) ∧
      PrefClosed ag (kahnOut ag) ∧
      (∀ n ∈ keysOf ag, n ∉ kahnOut ag → ∃ d ∈ lookupG ag n, d ∉ kahnOut ag) := by
  have hinit : KInv ag
      (sortAsc ((keysOf ag).filter (fun n => decide ((((lookupG ag n).length : Int)) = 0))))
      (fun n => ((lookupG ag n).length : Int)) [] := by
    refine ⟨List.nodup_nil, ?_, ?_, ?_, ?_, ?_, ?_, ?_, ?_⟩
    · intro n hn; cases hn
    · intro i hi; cases hi
    · exact (List.perm_insertionSort SLe _).nodup_iff.mpr
        ((List.filter_sublist _).nodup hkn)
    · intro n hn
      rw [mem_sortAsc] at hn
      exact (List.mem_filter.mp hn).1
    · intro n _ hn; cases hn
    · intro n _
      have : remCount ag [] n = (lookupG ag n).length := by
        unfold remCount
        congr 1
        apply List.filter_eq_self.mpr
        intro a _
        simp
      rw [this]
    · intro n hn _ hnheap
      intro hzero
      apply hnheap
      rw [mem_sortAsc]
      exact List.mem_filter.mpr ⟨hn, by simpa using hzero⟩
    · intro n hn
      rw [mem_sortAsc] at hn
      simpa using (List.mem_filter.mp hn).2
  obtain ⟨-, hnd, hkeys, hpc, hcompl⟩ :=
    kahnLoop_post ag hkn hcl hdn ((keysOf ag).length + 1) _ _ [] hinit (by omega)
  exact ⟨hnd, hkeys, hpc, hcompl⟩

/-- Under acyclicity of the resolved graph the loop drains every node. -/
lemma kahnOut_complete (ag : Graph) (hkn : (keysOf ag).Nodup) (hcl : Closed ag)
    (hdn : ∀ p ∈ ag, p.2.Nodup) (hacyc : Acyclic ag) :
    ∀ n ∈ keysOf ag, n ∈ kahnOut ag := by
  obtain ⟨hnd, hkeys, hpc, hcompl⟩ := kahnOut_spec ag hkn hcl hdn
  by_contra hcon
  push_neg at hcon
  obtain ⟨n, hn, hnout⟩ := hcon
  set T := (keysOf ag).filter (fun x => decide (x ∉ kahnOut ag)) with hT
  have hTne : T ≠ [] := by
    intro h
    have : n ∈ T := List.mem_filter.mpr ⟨hn, by simpa using hnout⟩
    rw [h] at this
    cases this
  have hTsucc : ∀ m ∈ T, ∃ d, StepRel ag m d ∧ d ∈ T := by
    intro m hm
    have hmk := (List.mem_filter.mp hm).1
    have hmout : m ∉ kahnOut ag := by simpa using (List.mem_filter.mp hm).2
    obtain ⟨d, hd, hdout⟩ := hcompl m hmk hmout
    refine ⟨d, hd, List.mem_filter.mpr ⟨lookupG_subset_keys ag hcl m d hd, by simpa using hdout⟩⟩
  obtain ⟨x, hx⟩ := cycle_of_closed_succ ag T hTne hTsucc
  exact hacyc x hx

/-! ## Per-round removal accounting (claim C1) -/

/-- The cycle group `c` contains a member with a self-loop in `g`. -/
def HasSelfLoop (g : Graph) (c : List String) : Prop := ∃ u ∈ c, u ∈ lookupG g u

instance (g : Graph) (c : List String) : Decidable (HasSelfLoop g c) :=
  inferInstanceAs (Decidable (∃ u ∈ c, u ∈ lookupG g u))

/-- The cycle group `c` contains an intra-group edge of `g`. -/
def HasIntraEdge (g : Graph) (c : List String) : Prop :=
  ∃ u ∈ c, ∃ v ∈ lookupG g u, v ∈ c

instance (g : Graph) (c : List String) : Decidable (HasIntraEdge g c) :=
  inferInstanceAs (Decidable (∃ u ∈ c, ∃ v ∈ lookupG g u, v ∈ c))

lemma firstSelfLoop_isSome_iff (g : Graph) (c : List String) :
    (firstSelfLoop g c).isSome ↔ HasSelfLoop g c := by
  unfold firstSelfLoop
  rw [List.find?_isSome]
  constructor
  · rintro ⟨u, hu, hpu⟩
    exact ⟨u, (List.mem_dedup.mp ((mem_sortAsc _ u).mp hu)), of_decide_eq_true hpu⟩
  · rintro ⟨u, hu, hloop⟩
    exact ⟨u, (mem_sortAsc _ u).mpr (List.mem_dedup.mpr hu), decide_eq_true hloop⟩

lemma firstSelfLoop_mem (g : Graph) (c : List String) (u : String)
    (h : firstSelfLoop g c = some u) : u ∈ c ∧ u ∈ lookupG g u := by
  unfold firstSelfLoop at h
  refine ⟨List.mem_dedup.mp ((mem_sortAsc _ u).mp (List.mem_of_find?_eq_some h)), ?_⟩
  have hp := List.find?_some h
  exact of_decide_eq_true hp

lemma firstIntraEdge_isSome_iff (g : Graph) (c : List String) :
    (firstIntraEdge g c).isSome ↔ HasIntraEdge g c := by
  unfold firstIntraEdge
  rw [Option.isSome_iff_exists]
  constructor
  · rintro ⟨⟨u, v⟩, huv⟩
    obtain ⟨a, ha, hfa⟩ := List.exists_of_findSome?_eq_some huv
    obtain ⟨w, hw, hww⟩ := Option.map_eq_some'.mp hfa
    rw [Prod.mk.injEq] at hww
    obtain ⟨rfl, rfl⟩ := hww
    refine ⟨a, List.mem_dedup.mp ((mem_sortAsc _ a).mp ha), w, ?_, ?_⟩
    · exact (mem_sortAsc _ w).mp (List.mem_of_find?_eq_some hw)
    · have hp := List.find?_some hw
      exact List.mem_dedup.mp (of_decide_eq_true hp)
  · rintro ⟨u, hu, v, hv, hvc⟩
    have hfind : ((sortAsc (lookupG g u)).find? (fun w => decide (w ∈ c.dedup))).isSome := by
      rw [List.find?_isSome]
      exact ⟨v, (mem_sortAsc _ v).mpr hv, decide_eq_true (List.mem_dedup.mpr hvc)⟩
    obtain ⟨v', hv'⟩ := Option.isSome_iff_exists.mp hfind
    have : (firstIntraEdge g c).isSome := by
      unfold firstIntraEdge
      rw [List.findSome?_isSome_iff]
      exact ⟨u, (mem_sortAsc _ u).mpr (List.mem_dedup.mpr hu), by rw [hv']; simp⟩
    obtain ⟨uv, huv⟩ := Option.isSome_iff_exists.mp this
    exact ⟨uv, huv⟩

lemma firstIntraEdge_mem (g : Graph) (c : List String) (u v : String)
    (h : firstIntraEdge g c = some (u, v)) : u ∈ c := by
  unfold firstIntraEdge at h
  obtain ⟨a, ha, hfa⟩ := List.exists_of_findSome?_eq_some h
  obtain ⟨w, _, hww⟩ := Option.map_eq_some'.mp hfa
  rw [Prod.mk.injEq] at hww
  obtain ⟨rfl, -⟩ := hww
  exact List.mem_dedup.mp ((mem_sortAsc _ a).mp ha)

/-- Removing an edge whose source is outside `c` does not change `c`'s
self-loop status. -/
lemma hasSelfLoop_removeEdge_of_not_mem (g : Graph) (u v : String) (c : List String)
    (hu : u ∉ c) : HasSelfLoop (removeEdge g u v) c ↔ HasSelfLoop g c := by
  unfold HasSelfLoop
  constructor
  · rintro ⟨w, hw, hloop⟩
    refine ⟨w, hw, ?_⟩
    have hne : w ≠ u := fun h => hu (h ▸ hw)
    rw [lookupG_removeEdge] at hloop
    rw [if_neg hne] at hloop
    exact hloop
  · rintro ⟨w, hw, hloop⟩
    refine ⟨w, hw, ?_⟩
    have hne : w ≠ u := fun h => hu (h ▸ hw)
    rw [lookupG_removeEdge, if_neg hne]
    exact hloop

/-- Processing a list of groups with `changed_this_round` already `true` keeps
it `true` and removes exactly one self-loop per self-looping group, provided
the groups are pairwise disjoint and disjoint from the sources touched so far. -/
lemma processFold_changed_true (cs : List (List String)) :
    ∀ (g : Graph) (removed : List (String × String)),
      cs.Pairwise (fun a b => ∀ x ∈ a, x ∉ b) →
      (cs.foldl processGroup (g, removed, true)).2.2 = true ∧
      (cs.foldl processGroup (g, removed, true)).2.1.length =
        removed.length + cs.countP (fun c => decide (HasSelfLoop g c)) := by
  induction cs with
  | nil => intro g removed _; simp
  | cons c cs ih =>
    intro g removed hdisj
    have hdisj' : cs.Pairwise (fun a b => ∀ x ∈ a, x ∉ b) := (List.pairwise_cons.mp hdisj).2
    have hdisjc : ∀ b ∈ cs, ∀ x ∈ c, x ∉ b := (List.pairwise_cons.mp hdisj).1
    simp only [List.foldl_cons]
    by_cases hsl : HasSelfLoop g c
    · obtain ⟨u, hu⟩ := Option.isSome_iff_exists.mp ((firstSelfLoop_isSome_iff g c).mpr hsl)
      have humem := firstSelfLoop_mem g c u hu
      have hpg : processGroup (g, removed, true) c =
          (removeEdge g u u, removed ++ [(u, u)], true) := by
        simp [processGroup, hu]
      rw [hpg]
      obtain ⟨hch, hlen⟩ := ih (removeEdge g u u) (removed ++ [(u, u)]) hdisj'
      refine ⟨hch, ?_⟩
      rw [hlen]
      have hcount : cs.countP (fun d => decide (HasSelfLoop (removeEdge g u u) d)) =
          cs.countP (fun d => decide (HasSelfLoop g d)) := by
        apply List.countP_congr
        intro d hd
        have : u ∉ d := hdisjc d hd u humem.1
        simp [hasSelfLoop_removeEdge_of_not_mem g u u d this]
      rw [hcount, List.countP_cons]
      simp only [List.length_append, List.length_singleton, decide_eq_true_eq, hsl,
        if_true]
      omega
    · have hnone : firstSelfLoop g c = none := by
        cases h : firstSelfLoop g c with
        | none => rfl
        | some u =>
          exact absurd ((firstSelfLoop_isSome_iff g c).mp (by rw [h]; rfl)) hsl
      have hpg : processGroup (g, removed, true) c = (g, removed, true) := by
        simp [processGroup, hnone]
      rw [hpg]
      obtain ⟨hch, hlen⟩ := ih g removed hdisj'
      refine ⟨hch, ?_⟩
      rw [hlen, List.countP_cons]
      simp [hsl]

/-- The graph `{A: {A}, B: {C}, C: {B}}`, on which the first resolution round
detects two cycle groups but removes only one edge. -/
def c1Graph : Graph := [("A", ["A"]), ("B", ["C"]), ("C", ["B"])]

/-- **C1 (counterexample).** It is not the case that every resolution round
removes as many edges as it detected cycle groups: on `{A: {A}, B: {C}, C: {B}}`
the first round detects the two groups `[A]` and `[C, B]` but removes only the
self-loop `A→A`; the group `{B, C}` has no edge removed that round because
`changed_this_round` is already set. -/
theorem round_removal_count_counterexample :
    ¬ ∀ r ∈ (resolveCyclesFull [("A", ["A"]), ("B", ["C"]), ("C", ["B"])]).log,
        r.2.length = r.1.length := by
  decide

/-- **C1 (amended).** In one resolution round over pairwise-disjoint detected
groups whose first group is a genuine cycle group (it has a self-loop or an
intra-group edge), the number of edges removed equals the number of groups
containing a self-loop, plus one if the first group contains none — not the
number of groups detected.  Groups after the first only ever lose a self-loop. -/
theorem round_removal_count_formula (g : Graph) (c : List String)
    (cs : List (List String))
    (hdisj : (c :: cs).Pairwise (fun a b => ∀ x ∈ a, x ∉ b))
    (hfirst : HasSelfLoop g c ∨ HasIntraEdge g c) :
    (processCycles g (c :: cs)).2.1.length =
      (c :: cs).countP (fun d => decide (HasSelfLoop g d)) +
        (if HasSelfLoop g c then 0 else 1) := by
  have hdisj' : cs.Pairwise (fun a b => ∀ x ∈ a, x ∉ b) := (List.pairwise_cons.mp hdisj).2
  have hdisjc : ∀ b ∈ cs, ∀ x ∈ c, x ∉ b := (List.pairwise_cons.mp hdisj).1
  unfold processCycles
  simp only [List.foldl_cons]
  by_cases hsl : HasSelfLoop g c
  · obtain ⟨u, hu⟩ := Option.isSome_iff_exists.mp ((firstSelfLoop_isSome_iff g c).mpr hsl)
    have humem := firstSelfLoop_mem g c u hu
    have hpg : processGroup (g, [], false) c = (removeEdge g u u, [(u, u)], true) := by
      simp [processGroup, hu]
    rw [hpg]
    obtain ⟨-, hlen⟩ := processFold_changed_true cs (removeEdge g u u) [(u, u)] hdisj'
    rw [hlen]
    have hcount : cs.countP (fun d => decide (HasSelfLoop (removeEdge g u u) d)) =
        cs.countP (fun d => decide (HasSelfLoop g d)) := by
      apply List.countP_congr
      intro d hd
      have : u ∉ d := hdisjc d hd u humem.1
      simp [hasSelfLoop_removeEdge_of_not_mem g u u d this]
    rw [hcount, List.countP_cons]
    simp only [List.length_singleton, decide_eq_true_eq, hsl, if_true]
    omega
  · have hie : HasIntraEdge g c := hfirst.resolve_left hsl
    have hnone : firstSelfLoop g c = none := by
      cases h : firstSelfLoop g c with
      | none => rfl
      | some u => exact absurd ((firstSelfLoop_isSome_iff g c).mp (by rw [h]; rfl)) hsl
    obtain ⟨⟨u, v⟩, huv⟩ :=
      Option.isSome_iff_exists.mp ((firstIntraEdge_isSome_iff g c).mpr hie)
    have humem := firstIntraEdge_mem g c u v huv
    have hpg : processGroup (g, [], false) c = (removeEdge g u v, [(u, v)], true) := by
      simp [processGroup, hnone, huv]
    rw [hpg]
    obtain ⟨-, hlen⟩ := processFold_changed_true cs (removeEdge g u v) [(u, v)] hdisj'
    rw [hlen]
    have hcount : cs.countP (fun d => decide (HasSelfLoop (removeEdge g u v) d)) =
        cs.countP (fun d => decide (HasSelfLoop g d)) := by
      apply List.countP_congr
      intro d hd
      have : u ∉ d := hdisjc d hd u humem
      simp [hasSelfLoop_removeEdge_of_not_mem g u v d this]
    rw [hcount, List.countP_cons]
    simp only [List.length_singleton, decide_eq_true_eq, hsl, if_false]
    omega

/-- Witness for `round_removal_count_formula` at the first round of resolving
`c1Graph`: two disjoint groups, one removed edge. -/
theorem round_removal_count_formula_witness :
    (processCycles c1Graph [["A"], ["C", "B"]]).2.1.length =
      ([["A"], ["C", "B"]].countP (fun d => decide (HasSelfLoop c1Graph d))) +
        (if HasSelfLoop c1Graph ["A"] then 0 else 1) :=
  round_removal_count_formula c1Graph ["A"] [["C", "B"]] (by decide) (Or.inl (by decide))

/-! ## Tarjan postcondition: every emitted group carries a self-loop or an
intra-group edge

The proof tracks only the `index` map, the stack shape and the result list;
`lowlink` and `onstack` influence only which branches run, and every branch
preserves the properties below. -/

/-- Count of graph keys not yet indexed. -/
def unIdxF (g : Graph) (f : String → Option Nat) : Nat :=
  (keysOf g).countP (fun n => (f n).isNone)

/-- The index map only ever grows (and never changes an assigned index). -/
def IdxMono (f f' : String → Option Nat) : Prop :=
  ∀ n i, f n = some i → f' n = some i

/-- All groups accumulated in the result carry a self-loop or intra-group edge. -/
def ResultOK (g : Graph) (s : TState) : Prop :=
  ∀ c ∈ s.result, HasSelfLoop g c ∨ HasIntraEdge g c

/-- Postcondition of `strongconnect g fuel v`: the index grows, `v` ends up
indexed, result stays OK, and the stack either returns to its entry state or
grows by a freshly indexed segment containing `v` in which every other member
has an in-edge from inside the segment. -/
def SCPost (g : Graph) (v : String) (s s' : TState) : Prop :=
  IdxMono s.index s'.index ∧
  (s'.index v).isSome ∧
  (ResultOK g s → ResultOK g s') ∧
  ∃ L, s'.stack = L ++ s.stack ∧
    (∀ w ∈ L, s.index w = none ∧ (s'.index w).isSome) ∧
    (L = [] ∨ (v ∈ L ∧ ∀ w ∈ L, w ≠ v → ∃ u ∈ L, w ∈ lookupG g u))

/-- Postcondition of the successor loop run for node `v`: like `SCPost`, but
the new stack segment's members have in-edges from the segment or from `v`. -/
def VSPost (g : Graph) (v : String) (s s' : TState) : Prop :=
  IdxMono s.index s'.index ∧
  (ResultOK g s → ResultOK g s') ∧
  ∃ M, s'.stack = M ++ s.stack ∧
    (∀ w ∈ M, s.index w = none ∧ (s'.index w).isSome) ∧
    (∀ w ∈ M, ∃ u, (u ∈ M ∨ u = v) ∧ w ∈ lookupG g u)

lemma idxMono_refl (f : String → Option Nat) : IdxMono f f := fun _ _ h => h

lemma idxMono_trans {f f' f'' : String → Option Nat}
    (h : IdxMono f f') (h' : IdxMono f' f'') : IdxMono f f'' :=
  fun n i hn => h' n i (h n i hn)

lemma idxMono_updF (f : String → Option Nat) (v : String) (c : Nat) (h : f v = none) :
    IdxMono f (updF f v c) := by
  intro n i hn
  unfold updF
  by_cases hv : n = v
  · rw [hv, h] at hn; cases hn
  · rw [if_neg hv]; exact hn

lemma unIdxF_mono (g : Graph) {f f' : String → Option Nat} (h : IdxMono f f') :
    unIdxF g f' ≤ unIdxF g f := by
  unfold unIdxF
  apply List.countP_mono_left
  intro n _ hp
  cases hf : f n with
  | none => simp
  | some i =>
    rw [h n i hf] at hp
    simp at hp

lemma countP_updF_lt (f : String → Option Nat) (v : String) (c : Nat)
    (hnone : f v = none) :
    ∀ l : List String, v ∈ l →
      l.countP (fun n => ((updF f v c) n).isNone) < l.countP (fun n => (f n).isNone) := by
  intro l
  induction l with
  | nil => intro h; cases h
  | cons a l ih =>
    intro hv
    rw [List.countP_cons, List.countP_cons]
    by_cases hav : a = v
    · subst hav
      have h1 : ((updF f a c) a).isNone = false := by simp [updF]
      have h2 : (f a).isNone = true := by simp [hnone]
      rw [h1, h2]
      rw [if_neg (by decide : ¬ (false = true)), if_pos rfl]
      have : l.countP (fun n => ((updF f a c) n).isNone) ≤ l.countP (fun n => (f n).isNone) := by
        apply List.countP_mono_left
        intro n _ hp
        unfold updF at hp
        by_cases hn : n = a
        · simp [hn] at hp
        · rwa [if_neg hn] at hp
      omega
    · rcases List.mem_cons.mp hv with h | h
      · exact absurd h.symm hav
      · have heq : ((updF f v c) a).isNone = (f a).isNone := by
          simp [updF, hav]
        rw [heq]
        have := ih h
        omega

lemma unIdxF_updF_lt (g : Graph) (f : String → Option Nat) (v : String) (c : Nat)
    (hv : v ∈ keysOf g) (hnone : f v = none) :
    unIdxF g (updF f v c) < unIdxF g f :=
  countP_updF_lt f v c hnone (keysOf g) hv

lemma unIdxF_pos (g : Graph) (f : String → Option Nat) (v : String)
    (hv : v ∈ keysOf g) (hnone : f v = none) : 0 < unIdxF g f := by
  unfold unIdxF
  rw [List.countP_pos_iff]
  exact ⟨v, hv, by simp [hnone]⟩

lemma popUntil_append (v : String) (M t : List String) (hvM : v ∉ M) :
    popUntil v (M ++ v :: t) = (M ++ [v], t) := by
  induction M with
  | nil =>
    show popUntil v ([] ++ v :: t) = ([] ++ [v], t)
    rw [List.nil_append, List.nil_append]
    unfold popUntil
    rw [if_pos rfl]
  | cons a M ih =>
    have hav : a ≠ v := fun h => hvM (h ▸ List.mem_cons_self _ _)
    have hvM' : v ∉ M := fun h => hvM (List.mem_cons_of_mem _ h)
    show popUntil v (a :: (M ++ v :: t)) = (a :: M ++ [v], t)
    unfold popUntil
    rw [if_neg hav]
    rw [ih hvM']
    rfl

/-- Unfolding of `strongconnect` at positive fuel, phrased with `visitSuccs`. -/
lemma strongconnect_succ_def (g : Graph) (fuel' : Nat) (v : String) (s : TState) :
    strongconnect g (fuel' + 1) v s =
      (let s1 : TState :=
        { s with
          index := updF s.index v s.counter
          lowlink := updF s.lowlink v s.counter
          counter := s.counter + 1
          stack := v :: s.stack
          onstack := v :: s.onstack }
       let s2 := visitSuccs g fuel' v (lookupG g v) s1
       if s2.lowlink v = s2.index v then
         let pr := popUntil v s2.stack
         let scc := pr.1
         let s3 : TState :=
           { s2 with
             stack := pr.2
             onstack := scc.foldl (fun os w => os.erase w) s2.onstack }
         if 1 < scc.length then { s3 with result := s3.result ++ [scc] }
         else
           match scc with
           | [only] =>
             if only ∈ lookupG g only then { s3 with result := s3.result ++ [scc] } else s3
           | _ => s3
       else s2) := rfl

/-- The successor loop for a list `w :: ws`, one step unfolded. -/
lemma visitSuccs_cons (g : Graph) (fuel : Nat) (v w : String) (ws : List String)
    (s : TState) :
    visitSuccs g fuel v (w :: ws) s =
      visitSuccs g fuel v ws
        (if (s.index w).isSome then
          if w ∈ s.onstack then
            { s with
              lowlink := updF s.lowlink v (min ((s.lowlink v).getD 0) ((s.index w).getD 0)) }
          else s
        else
          let s' := strongconnect g fuel w s
          { s' with
            lowlink := updF s'.lowlink v (min ((s'.lowlink v).getD 0) ((s'.lowlink w).getD 0)) }) :=
  rfl

/-- The successor loop satisfies `VSPost`, assuming the recursive-call
postcondition for the same fuel. -/
lemma visitSuccs_post (g : Graph) (hg : Closed g) (fuel : Nat)
    (IH : ∀ (w : String) (s : TState), unIdxF g s.index ≤ fuel → w ∈ keysOf g →
      s.index w = none → SCPost g w s (strongconnect g fuel w s)) :
    ∀ (succs : List String) (v : String) (s : TState),
      (∀ w ∈ succs, w ∈ lookupG g v) →
      unIdxF g s.index ≤ fuel →
      VSPost g v s (visitSuccs g fuel v succs s) := by
  intro succs
  induction succs with
  | nil =>
    intro v s _ _
    exact ⟨idxMono_refl _, fun h => h, [], by simp [visitSuccs], by simp, by simp⟩
  | cons w ws ih =>
    intro v s hsucc hfuel
    rw [visitSuccs_cons]
    by_cases hidx : (s.index w).isSome
    · rw [if_pos hidx]
      -- Only the lowlink changes; index, stack and result are untouched.
      by_cases hon : w ∈ s.onstack
      · rw [if_pos hon]
        exact ih v
          { s with
            lowlink := updF s.lowlink v (min ((s.lowlink v).getD 0) ((s.index w).getD 0)) }
          (fun x hx => hsucc x (List.mem_cons_of_mem _ hx)) hfuel
      · rw [if_neg hon]
        exact ih v s (fun x hx => hsucc x (List.mem_cons_of_mem _ hx)) hfuel
    · rw [if_neg hidx]
      have hnone : s.index w = none := Option.not_isSome_iff_eq_none.mp hidx
      have hwkeys : w ∈ keysOf g :=
        lookupG_subset_keys g hg v w (hsucc w (List.mem_cons_self _ _))
      obtain ⟨hmono1, hvidx1, hres1, L, hstack1, hnew1, hseg1⟩ :=
        IH w s hfuel hwkeys hnone
      set s' := strongconnect g fuel w s with hs'
      set s'' : TState :=
        { s' with
          lowlink := updF s'.lowlink v (min ((s'.lowlink v).getD 0) ((s'.lowlink w).getD 0)) }
        with hs''
      have hfuel'' : unIdxF g s''.index ≤ fuel :=
        le_trans (unIdxF_mono g hmono1) hfuel
      obtain ⟨hmono2, hres2, M, hstack2, hnew2, hwit2⟩ :=
        ih v s'' (fun x hx => hsucc x (List.mem_cons_of_mem _ hx)) hfuel''
      refine ⟨idxMono_trans hmono1 hmono2, fun h => hres2 (hres1 h), M ++ L, ?_, ?_, ?_⟩
      · rw [hstack2]
        show M ++ s''.stack = (M ++ L) ++ s.stack
        have : s''.stack = s'.stack := rfl
        rw [this, hstack1, List.append_assoc]
      · intro x hx
        rcases List.mem_append.mp hx with hxM | hxL
        · have h2 := hnew2 x hxM
          have hxs : s.index x = none := by
            cases hxs : s.index x with
            | none => rfl
            | some i =>
              have : s''.index x = some i := hmono1 x i hxs
              rw [this] at h2
              simp at h2
          exact ⟨hxs, h2.2⟩
        · have h1 := hnew1 x hxL
          refine ⟨h1.1, ?_⟩
          obtain ⟨i, hi⟩ := Option.isSome_iff_exists.mp h1.2
          rw [hmono2 x i hi]
          rfl
      · intro x hx
        rcases List.mem_append.mp hx with hxM | hxL
        · obtain ⟨u, hu, hedge⟩ := hwit2 x hxM
          rcases hu with hu | hu
          · exact ⟨u, Or.inl (List.mem_append.mpr (Or.inl hu)), hedge⟩
          · exact ⟨u, Or.inr hu, hedge⟩
        · rcases hseg1 with hL | ⟨hwL, hsegwit⟩
          · rw [hL] at hxL; cases hxL
          · by_cases hxw : x = w
            · subst hxw
              exact ⟨v, Or.inr rfl, hsucc x (List.mem_cons_self _ _)⟩
            · obtain ⟨u, hu, hedge⟩ := hsegwit x hxL hxw
              exact ⟨u, Or.inl (List.mem_append.mpr (Or.inr hu)), hedge⟩

/-- `strongconnect` satisfies its postcondition whenever the fuel covers the
number of unindexed keys (which the Python recursion depth never exceeds). -/
lemma strongconnect_post (g : Graph) (hg : Closed g) :
    ∀ (fuel : Nat) (v : String) (s : TState),
      unIdxF g s.index ≤ fuel → v ∈ keysOf g → s.index v = none →
      SCPost g v s (strongconnect g fuel v s) := by
  intro fuel
  induction fuel with
  | zero =>
    intro v s hfuel hv hnone
    have := unIdxF_pos g s.index v hv hnone
    omega
  | succ fuel' ih =>
    intro v s hfuel hv hnone
    rw [strongconnect_succ_def]
    set s1 : TState :=
      { s with
        index := updF s.index v s.counter
        lowlink := updF s.lowlink v s.counter
        counter := s.counter + 1
        stack := v :: s.stack
        onstack := v :: s.onstack } with hs1
    have hmono01 : IdxMono s.index s1.index := idxMono_updF s.index v s.counter hnone
    have hvidx1 : s1.index v = some s.counter := by
      show updF s.index v s.counter v = some s.counter
      simp [updF]
    have hfuel1 : unIdxF g s1.index ≤ fuel' := by
      have := unIdxF_updF_lt g s.index v s.counter hv hnone
      have h1 : unIdxF g s1.index = unIdxF g (updF s.index v s.counter) := rfl
      omega
    obtain ⟨hmono12, hres12, M, hstack2, hnew2, hwit2⟩ :=
      visitSuccs_post g hg fuel' ih (lookupG g v) v s1 (fun _ hx => hx) hfuel1
    set s2 := visitSuccs g fuel' v (lookupG g v) s1 with hs2
    have hvM : v ∉ M := by
      intro hvm
      have := (hnew2 v hvm).1
      rw [hvidx1] at this
      exact Option.noConfusion this
    have hstack2' : s2.stack = M ++ v :: s.stack := by
      rw [hstack2]
    have hvidx2 : (s2.index v).isSome := by
      rw [hmono12 v s.counter hvidx1]
      rfl
    have hmono02 : IdxMono s.index s2.index := idxMono_trans hmono01 hmono12
    -- properties of the combined segment M ++ [v]
    have hnewSeg : ∀ w ∈ M ++ [v], s.index w = none ∧ (s2.index w).isSome := by
      intro w hw
      rcases List.mem_append.mp hw with hwM | hwv
      · have h2 := hnew2 w hwM
        have hwnv : w ≠ v := fun h => hvM (h ▸ hwM)
        refine ⟨?_, h2.2⟩
        have := h2.1
        show s.index w = none
        have hupd : updF s.index v s.counter w = none := this
        unfold updF at hupd
        rwa [if_neg hwnv] at hupd
      · rw [List.mem_singleton] at hwv
        subst hwv
        exact ⟨hnone, hvidx2⟩
    have hsegwit : ∀ w ∈ M ++ [v], w ≠ v → ∃ u ∈ M ++ [v], w ∈ lookupG g u := by
      intro w hw hwv
      have hwM : w ∈ M := by
        rcases List.mem_append.mp hw with h | h
        · exact h
        · rw [List.mem_singleton] at h; exact absurd h hwv
      obtain ⟨u, hu, hedge⟩ := hwit2 w hwM
      rcases hu with hu | hu
      · exact ⟨u, List.mem_append.mpr (Or.inl hu), hedge⟩
      · exact ⟨u, hu ▸ List.mem_append.mpr (Or.inr (List.mem_singleton.mpr rfl)), hedge⟩
    by_cases hpop : s2.lowlink v = s2.index v
    · rw [if_pos hpop]
      rw [hstack2']
      rw [popUntil_append v M s.stack hvM]
      -- the popped group is M ++ [v]
      by_cases hlen : 1 < (M ++ [v]).length
      · simp only [if_pos hlen]
        have hM : M ≠ [] := by
          intro h
          rw [h] at hlen
          simp at hlen
        obtain ⟨w, hwM⟩ := List.exists_mem_of_ne_nil M hM
        obtain ⟨u, hu, hedge⟩ := hwit2 w hwM
        have hok : HasSelfLoop g (M ++ [v]) ∨ HasIntraEdge g (M ++ [v]) := by
          right
          refine ⟨u, ?_, w, hedge, List.mem_append.mpr (Or.inl hwM)⟩
          rcases hu with hu | hu
          · exact List.mem_append.mpr (Or.inl hu)
          · exact hu ▸ List.mem_append.mpr (Or.inr (List.mem_singleton.mpr rfl))
        refine ⟨hmono02, ?_, ?_, [], by simp, by simp, by simp⟩
        · exact hvidx2
        · intro hres
          intro c hc
          rcases List.mem_append.mp hc with hc | hc
          · exact hres12 hres c hc
          · rw [List.mem_singleton] at hc
            subst hc
            exact hok
      · simp only [if_neg hlen]
        have hM : M = [] := by
          cases hMc : M with
          | nil => rfl
          | cons a M' =>
            rw [hMc] at hlen
            simp at hlen
        subst hM
        simp only [List.nil_append]
        by_cases hloop : v ∈ lookupG g v
        · simp only [if_pos hloop]
          refine ⟨hmono02, hvidx2, ?_, [], by simp, by simp, by simp⟩
          intro hres c hc
          rcases List.mem_append.mp hc with hc | hc
          · exact hres12 hres c hc
          · rw [List.mem_singleton] at hc
            subst hc
            exact Or.inl ⟨v, List.mem_singleton.mpr rfl, hloop⟩
        · simp only [if_neg hloop]
          exact ⟨hmono02, hvidx2, hres12, [], by simp, by simp, by simp⟩
    · rw [if_neg hpop]
      refine ⟨hmono02, hvidx2, hres12, M ++ [v], ?_, hnewSeg, ?_⟩
      · rw [hstack2']
        simp
      · right
        exact ⟨List.mem_append.mpr (Or.inr (List.mem_singleton.mpr rfl)), hsegwit⟩

/-- Every group reported by `detect_cycles` contains a self-loop or an
intra-group edge of the normalized graph. -/
lemma detectCycles_groups_ok (g : Graph) :
    ∀ c ∈ detectCycles g,
      HasSelfLoop (normalizeGraph g) c ∨ HasIntraEdge (normalizeGraph g) c := by
  have hg := closed_normalizeGraph g
  set ng := normalizeGraph g with hng
  have hfold : ∀ (nodes : List String), (∀ n ∈ nodes, n ∈ keysOf ng) →
      ∀ s : TState, ResultOK ng s →
      ResultOK ng (nodes.foldl
        (fun s node =>
          if (s.index node).isSome then s else strongconnect ng (keysOf ng).length node s)
        s) := by
    intro nodes
    induction nodes with
    | nil => intro _ s hs; exact hs
    | cons n nodes ihn =>
      intro hmem s hs
      simp only [List.foldl_cons]
      by_cases hidx : (s.index n).isSome
      · rw [if_pos hidx]
        exact ihn (fun x hx => hmem x (List.mem_cons_of_mem _ hx)) s hs
      · rw [if_neg hidx]
        have hnone : s.index n = none := Option.not_isSome_iff_eq_none.mp hidx
        have hfuel : unIdxF ng s.index ≤ (keysOf ng).length := List.countP_le_length _
        obtain ⟨-, -, hres, -⟩ :=
          strongconnect_post ng hg (keysOf ng).length n s hfuel
            (hmem n (List.mem_cons_self _ _)) hnone
        exact ihn (fun x hx => hmem x (List.mem_cons_of_mem _ hx)) _ (hres hs)
  intro c hc
  exact hfold (keysOf ng) (fun _ hx => hx) initTState (fun c hc => by cases hc) c hc

/-! ## Closedness through resolution, and the resolver's exit modes -/

lemma closed_removeEdge (g : Graph) (u v : String) (h : Closed g) :
    Closed (removeEdge g u v) := by
  intro p hp d hd
  rw [keysOf_removeEdge]
  unfold removeEdge at hp
  obtain ⟨q, hq, hqp⟩ := List.mem_map.mp hp
  by_cases hu : q.1 = u
  · rw [if_pos hu] at hqp
    subst hqp
    exact h q hq d (q.2.erase_subset _ hd)
  · rw [if_neg hu] at hqp
    subst hqp
    exact h q hq d hd

lemma closed_processGroup (st : Graph × List (String × String) × Bool) (scc : List String)
    (h : Closed st.1) : Closed (processGroup st scc).1 := by
  unfold processGroup
  cases hsl : firstSelfLoop st.1 scc with
  | some u => exact closed_removeEdge _ _ _ h
  | none =>
    simp only
    by_cases hc : st.2.2
    · simpa [hc] using h
    · simp only [hc, if_false]
      cases hie : firstIntraEdge st.1 scc with
      | some uv => exact closed_removeEdge _ _ _ h
      | none => exact h

lemma closed_processCycles_fold (cycles : List (List String)) :
    ∀ st : Graph × List (String × String) × Bool, Closed st.1 →
      Closed (cycles.foldl processGroup st).1 := by
  induction cycles with
  | nil => intro st h; exact h
  | cons c cs ih =>
    intro st h
    simp only [List.foldl_cons]
    exact ih _ (closed_processGroup st c h)

/-- If the round loop exits through its `if not cycles` branch, the returned
graph really is cycle-free according to the detector. -/
lemma resolveLoop_noCycles (fuel : Nat) :
    ∀ (g : Graph) (log : List (List (List String) × List (String × String))),
      (resolveLoop fuel g log).tag = ExitTag.noCycles →
      detectCycles (resolveLoop fuel g log).graph = [] := by
  induction fuel with
  | zero => intro g log h; cases h
  | succ fuel ih =>
    intro g log
    unfold resolveLoop
    by_cases hc : detectCycles g = []
    · rw [if_pos hc]
      exact fun _ => hc
    · simp only [hc, if_false]
      by_cases hch : (processCycles g (detectCycles g)).2.2
      · simp only [hch, if_true]
        exact ih _ _
      · simp only [hch, if_false]
        intro h
        cases h

lemma processGroup_changed_mono (st : Graph × List (String × String) × Bool)
    (c : List String) (h : st.2.2 = true) : (processGroup st c).2.2 = true := by
  unfold processGroup
  cases firstSelfLoop st.1 c with
  | some u => rfl
  | none =>
    simp only [h, if_true]

lemma processFold_changed (cs : List (List String)) :
    ∀ st : Graph × List (String × String) × Bool, st.2.2 = true →
      (cs.foldl processGroup st).2.2 = true := by
  induction cs with
  | nil => intro st h; exact h
  | cons c cs ih =>
    intro st h
    simp only [List.foldl_cons]
    exact ih _ (processGroup_changed_mono st c h)

/-- A round whose first detected group is a genuine cycle group always removes
at least one edge, so `changed_this_round` ends up `true`. -/
lemma processCycles_changed (g : Graph) (c : List String) (cs : List (List String))
    (hfirst : HasSelfLoop g c ∨ HasIntraEdge g c) :
    (processCycles g (c :: cs)).2.2 = true := by
  unfold processCycles
  simp only [List.foldl_cons]
  by_cases hsl : HasSelfLoop g c
  · obtain ⟨u, hu⟩ := Option.isSome_iff_exists.mp ((firstSelfLoop_isSome_iff g c).mpr hsl)
    have hpg : processGroup (g, [], false) c = (removeEdge g u u, [(u, u)], true) := by
      simp [processGroup, hu]
    rw [hpg]
    exact processFold_changed cs _ rfl
  · have hie : HasIntraEdge g c := hfirst.resolve_left hsl
    have hnone : firstSelfLoop g c = none := by
      cases h : firstSelfLoop g c with
      | none => rfl
      | some u => exact absurd ((firstSelfLoop_isSome_iff g c).mp (by rw [h]; rfl)) hsl
    obtain ⟨⟨u, v⟩, huv⟩ :=
      Option.isSome_iff_exists.mp ((firstIntraEdge_isSome_iff g c).mpr hie)
    have hpg : processGroup (g, [], false) c = (removeEdge g u v, [(u, v)], true) := by
      simp [processGroup, hnone, huv]
    rw [hpg]
    exact processFold_changed cs _ rfl

/-- On closed graphs the round loop never exits through the `noProgress`
branch, and a `maxRounds` exit runs exactly `fuel` rounds. -/
lemma resolveLoop_tag_props (fuel : Nat) :
    ∀ (g : Graph) (log : List (List (List String) × List (String × String))),
      Closed g →
      (resolveLoop fuel g log).tag ≠ ExitTag.noProgress ∧
        ((resolveLoop fuel g log).tag = ExitTag.maxRounds →
          (resolveLoop fuel g log).log.length = log.length + fuel) := by
  induction fuel with
  | zero =>
    intro g log _
    exact ⟨fun h => ExitTag.noConfusion h, fun _ => rfl⟩
  | succ fuel ih =>
    intro g log hg
    unfold resolveLoop
    by_cases hc : detectCycles g = []
    · rw [if_pos hc]
      exact ⟨fun h => ExitTag.noConfusion h, fun h => ExitTag.noConfusion h⟩
    · rw [if_neg hc]
      obtain ⟨c, cs, hcs⟩ := List.exists_cons_of_ne_nil hc
      have hcmem : c ∈ detectCycles g := by rw [hcs]; exact List.mem_cons_self _ _
      have hok := detectCycles_groups_ok g c hcmem
      rw [normalizeGraph_eq_self_of_closed g hg] at hok
      have hch : (processCycles g (detectCycles g)).2.2 = true := by
        rw [hcs]
        exact processCycles_changed g c cs hok
      rw [if_pos hch]
      have hclosed' : Closed (processCycles g (detectCycles g)).1 :=
        closed_processCycles_fold _ _ hg
      obtain ⟨h1, h2⟩ := ih _ (log ++ [(detectCycles g, (processCycles g (detectCycles g)).2.1)])
        hclosed'
      refine ⟨h1, fun h => ?_⟩
      rw [h2 h]
      simp only [List.length_append, List.length_singleton]
      omega

/-- **C2.** For every graph `G`, `detect_cycles(resolve_cycles(G))` is empty
unless the resolver spent its full round budget of `max(10, 2 × node_count)`
rounds: the `noProgress` early return is unreachable (the first detected group
always yields a removal), so the only exits are "no cycles detected" — with a
detector-verified acyclic result — and the round bound. -/
theorem resolve_cyclefree_unless_budget (g : Graph) :
    (resolveCyclesFull g).tag ≠ ExitTag.noProgress ∧
      ((resolveCyclesFull g).tag = ExitTag.noCycles →
        detectCycles (resolveCycles g) = []) ∧
      ((resolveCyclesFull g).tag = ExitTag.maxRounds →
        (resolveCyclesFull g).log.length = max 10 ((normalizeGraph g).length * 2)) := by
  obtain ⟨h1, h2⟩ :=
    resolveLoop_tag_props (max 10 ((normalizeGraph g).length * 2)) (normalizeGraph g) []
      (closed_normalizeGraph g)
  refine ⟨h1, ?_, ?_⟩
  · intro h
    exact resolveLoop_noCycles _ _ _ h
  · intro h
    have := h2 h
    simpa using this

/-- The complete directed graph on six nodes: cycle resolution needs fifteen
edge removals but the round bound `max(10, 2 × 6) = 12` allows only twelve, so
a residual cycle `{d, e, f}` survives and both orderings violate the
dependencies-first precedence on its edges. -/
def k6Graph : Graph :=
  [("a", ["b", "c", "d", "e", "f"]), ("b", ["a", "c", "d", "e", "f"]),
   ("c", ["a", "b", "d", "e", "f"]), ("d", ["a", "b", "c", "e", "f"]),
   ("e", ["a", "b", "c", "d", "f"]), ("f", ["a", "b", "c", "d", "e"])]

/-- **C3 (counterexample).** The unqualified precedence claim fails: on the
complete digraph on six nodes, `d→e` survives in `resolve_cycles` yet `e` does
not precede `d` in `topological_sort`, and `f→d` survives yet `d` does not
precede `f` in `dependency_first_dfs`. -/
theorem ordering_precedence_counterexample :
    ("e" ∈ lookupG (resolveCycles k6Graph) "d" ∧
        ¬ precedes (topologicalSort k6Graph) "e" "d") ∧
      ("d" ∈ lookupG (resolveCycles k6Graph) "f" ∧
        ¬ precedes (dependencyFirstDfs k6Graph) "d" "f") := by
  decide

/-! ## Well-formedness through normalization and resolution -/

lemma missingDeps_nodup (g : Graph) : (missingDeps g).Nodup := by
  rw [missingDeps_eq]
  have inner : ∀ (ds : List String) (a : List String), a.Nodup → (ds.foldl (mdStep g) a).Nodup := by
    intro ds
    induction ds with
    | nil => intro a h; exact h
    | cons d ds ih =>
      intro a h
      simp only [List.foldl_cons]
      apply ih
      unfold mdStep
      by_cases hc : d ∈ keysOf g ∨ d ∈ a
      · rwa [if_pos hc]
      · rw [if_neg hc]
        rw [not_or] at hc
        exact List.Nodup.append h (List.nodup_singleton d) (by
          intro x hx hx'
          rw [List.mem_singleton] at hx'
          subst hx'
          exact hc.2 hx)
  have outer : ∀ (l : List (String × List String)) (a : List String), a.Nodup →
      (l.foldl (fun acc p => p.2.foldl (mdStep g) acc) a).Nodup := by
    intro l
    induction l with
    | nil => intro a h; exact h
    | cons p l ih =>
      intro a h
      simp only [List.foldl_cons]
      exact ih _ (inner p.2 a h)
  exact outer g [] (List.nodup_nil)

lemma keys_nodup_normalizeGraph (g : Graph) (h : (keysOf g).Nodup) :
    (keysOf (normalizeGraph g)).Nodup := by
  rw [keysOf_normalizeGraph]
  refine List.Nodup.append h (missingDeps_nodup g) ?_
  intro x hx hx'
  exact mem_missingDeps_not_key g x hx' hx

/-- Dependency lists stay duplicate-free under normalization. -/
lemma deps_nodup_normalizeGraph (g : Graph) (h : ∀ p ∈ g, p.2.Nodup) :
    ∀ p ∈ normalizeGraph g, p.2.Nodup := by
  intro p hp
  rcases List.mem_append.mp hp with h' | h'
  · exact h p h'
  · obtain ⟨x, _, rfl⟩ := List.mem_map.mp h'
    exact List.nodup_nil

lemma deps_nodup_removeEdge (g : Graph) (u v : String) (h : ∀ p ∈ g, p.2.Nodup) :
    ∀ p ∈ removeEdge g u v, p.2.Nodup := by
  intro p hp
  obtain ⟨q, hq, hqp⟩ := List.mem_map.mp hp
  by_cases hu : q.1 = u
  · rw [if_pos hu] at hqp
    subst hqp
    exact (h q hq).erase v
  · rw [if_neg hu] at hqp
    subst hqp
    exact h q hq

lemma deps_nodup_processGroup (st : Graph × List (String × String) × Bool)
    (scc : List String) (h : ∀ p ∈ st.1, p.2.Nodup) :
    ∀ p ∈ (processGroup st scc).1, p.2.Nodup := by
  unfold processGroup
  cases hsl : firstSelfLoop st.1 scc with
  | some u => exact deps_nodup_removeEdge _ _ _ h
  | none =>
    simp only
    by_cases hc : st.2.2
    · simpa [hc] using h
    · simp only [hc, if_false]
      cases hie : firstIntraEdge st.1 scc with
      | some uv => exact deps_nodup_removeEdge _ _ _ h
      | none => exact h

lemma deps_nodup_processCycles_fold (cycles : List (List String)) :
    ∀ st : Graph × List (String × String) × Bool, (∀ p ∈ st.1, p.2.Nodup) →
      ∀ p ∈ (cycles.foldl processGroup st).1, p.2.Nodup := by
  induction cycles with
  | nil => intro st h; exact h
  | cons c cs ih =>
    intro st h
    simp only [List.foldl_cons]
    exact ih _ (deps_nodup_processGroup st c h)

lemma deps_nodup_resolveLoop (fuel : Nat) :
    ∀ (g : Graph) (log : List (List (List String) × List (String × String))),
      (∀ p ∈ g, p.2.Nodup) → ∀ p ∈ (resolveLoop fuel g log).graph, p.2.Nodup := by
  induction fuel with
  | zero => intro g log h; exact h
  | succ fuel ih =>
    intro g log h
    unfold resolveLoop
    by_cases hc : detectCycles g = []
    · rw [if_pos hc]; exact h
    · rw [if_neg hc]
      by_cases hch : (processCycles g (detectCycles g)).2.2
      · rw [if_pos hch]
        exact ih _ _ (deps_nodup_processCycles_fold _ _ h)
      · rw [if_neg hch]
        exact deps_nodup_processCycles_fold _ _ h

lemma closed_resolveLoop (fuel : Nat) :
    ∀ (g : Graph) (log : List (List (List String) × List (String × String))),
      Closed g → Closed (resolveLoop fuel g log).graph := by
  induction fuel with
  | zero => intro g log h; exact h
  | succ fuel ih =>
    intro g log h
    unfold resolveLoop
    by_cases hc : detectCycles g = []
    · rw [if_pos hc]; exact h
    · rw [if_neg hc]
      by_cases hch : (processCycles g (detectCycles g)).2.2
      · rw [if_pos hch]
        exact ih _ _ (closed_processCycles_fold _ _ h)
      · rw [if_neg hch]
        exact closed_processCycles_fold _ _ h

lemma closed_resolveCycles (g : Graph) : Closed (resolveCycles g) :=
  closed_resolveLoop _ _ _ (closed_normalizeGraph g)

lemma keys_nodup_resolveCycles (g : Graph) (h : (keysOf g).Nodup) :
    (keysOf (resolveCycles g)).Nodup := by
  have := keysOf_resolveLoop (max 10 ((normalizeGraph g).length * 2)) (normalizeGraph g) []
  unfold resolveCycles resolveCyclesFull
  rw [this]
  exact keys_nodup_normalizeGraph g h

lemma deps_nodup_resolveCycles (g : Graph) (h : ∀ p ∈ g, p.2.Nodup) :
    ∀ p ∈ resolveCycles g, p.2.Nodup :=
  deps_nodup_resolveLoop _ _ _ (deps_nodup_normalizeGraph g h)

/-- The graph the orderings actually run on (`_normalize_graph` applied to the
resolver's output) is the resolver's output itself: the output is closed. -/
lemma orderings_graph_eq (g : Graph) :
    normalizeGraph (resolveCycles g) = resolveCycles g :=
  normalizeGraph_eq_self_of_closed _ (closed_resolveCycles g)

/-- `topological_sort` emits every node of the resolved graph exactly once. -/
lemma topo_perm (g : Graph) (hwf : WF g) :
    (topologicalSort g).Perm (keysOf (normalizeGraph (resolveCycles g))) := by
  have hag' : normalizeGraph (resolveCycles g) = resolveCycles g := orderings_graph_eq g
  set ag := normalizeGraph (resolveCycles g) with hag
  have hkn : (keysOf ag).Nodup := by rw [hag']; exact keys_nodup_resolveCycles g hwf.1
  have hcl : Closed ag := by rw [hag']; exact closed_resolveCycles g
  have hdn : ∀ p ∈ ag, p.2.Nodup := by rw [hag']; exact deps_nodup_resolveCycles g hwf.2
  obtain ⟨hnd, hkeys, hpc, hcompl⟩ := kahnOut_spec ag hkn hcl hdn
  rw [topologicalSort_eq_kahnOut]
  rw [← hag]
  by_cases hlen : (kahnOut ag).length ≠ (keysOf ag).length
  · rw [if_pos hlen]
    have happnd : (sortAsc ((keysOf ag).filter (fun n => decide (n ∉ kahnOut ag)))).Nodup :=
      (List.perm_insertionSort SLe _).nodup_iff.mpr ((List.filter_sublist _).nodup hkn)
    have hfinN : (kahnOut ag ++
        sortAsc ((keysOf ag).filter (fun n => decide (n ∉ kahnOut ag)))).Nodup := by
      refine List.Nodup.append hnd happnd ?_
      intro x hx hx'
      rw [mem_sortAsc] at hx'
      have := (List.mem_filter.mp hx').2
      simp only [decide_eq_true_eq] at this
      exact this hx
    apply (List.perm_ext_iff_of_nodup hfinN hkn).mpr
    intro a
    constructor
    · intro ha
      rcases List.mem_append.mp ha with h | h
      · exact hkeys a h
      · rw [mem_sortAsc] at h
        exact (List.mem_filter.mp h).1
    · intro ha
      by_cases haout : a ∈ kahnOut ag
      · exact List.mem_append.mpr (Or.inl haout)
      · refine List.mem_append.mpr (Or.inr ?_)
        rw [mem_sortAsc]
        exact List.mem_filter.mpr ⟨ha, by simpa using haout⟩
  · rw [if_neg hlen]
    push_neg at hlen
    apply (List.perm_ext_iff_of_nodup hnd hkn).mpr
    intro a
    constructor
    · exact fun h => hkeys a h
    · intro ha
      have hsub : (kahnOut ag).toFinset ⊆ (keysOf ag).toFinset := by
        intro x hx
        exact List.mem_toFinset.mpr (hkeys x (List.mem_toFinset.mp hx))
      have hcard : (keysOf ag).toFinset.card ≤ (kahnOut ag).toFinset.card := by
        rw [List.toFinset_card_of_nodup hnd, List.toFinset_card_of_nodup hkn, hlen]
      have heqf := Finset.eq_of_subset_of_card_le hsub hcard
      have : a ∈ (kahnOut ag).toFinset := by
        rw [heqf]
        exact List.mem_toFinset.mpr ha
      exact List.mem_toFinset.mp this

/-- Under acyclicity of the resolved graph, `topological_sort` satisfies the
dependencies-first precedence on every surviving edge. -/
lemma topo_precedes (g : Graph) (hwf : WF g) (hacyc : Acyclic (resolveCycles g)) :
    ∀ a b, b ∈ lookupG (resolveCycles g) a → precedes (topologicalSort g) b a := by
  have hag' : normalizeGraph (resolveCycles g) = resolveCycles g := orderings_graph_eq g
  set ag := normalizeGraph (resolveCycles g) with hag
  have hkn : (keysOf ag).Nodup := by rw [hag']; exact keys_nodup_resolveCycles g hwf.1
  have hcl : Closed ag := by rw [hag']; exact closed_resolveCycles g
  have hdn : ∀ p ∈ ag, p.2.Nodup := by rw [hag']; exact deps_nodup_resolveCycles g hwf.2
  have hacyc' : Acyclic ag := by rw [hag']; exact hacyc
  obtain ⟨hnd, hkeys, hpc, hcompl⟩ := kahnOut_spec ag hkn hcl hdn
  have hall := kahnOut_complete ag hkn hcl hdn hacyc'
  have hlen : (kahnOut ag).length = (keysOf ag).length := by
    have hperm : (kahnOut ag).Perm (keysOf ag) :=
      (List.perm_ext_iff_of_nodup hnd hkn).mpr
        (fun a => ⟨fun h => hkeys a h, fun h => hall a h⟩)
    exact hperm.length_eq
  rw [topologicalSort_eq_kahnOut]
  rw [← hag]
  rw [if_neg (fun h => h hlen)]
  intro a b hb
  have hbag : b ∈ lookupG ag a := by rw [hag']; exact hb
  have hak : a ∈ keysOf ag := lookupG_ne_nil_mem_keys ag a (List.ne_nil_of_mem hbag)
  have haout : a ∈ kahnOut ag := hall a hak
  obtain ⟨i, hgi⟩ := List.mem_iff_get.mp haout
  have hbtake : b ∈ (kahnOut ag).take i.1 := by
    refine hpc i.1 i.2 b ?_
    have : (kahnOut ag).get ⟨i.1, i.2⟩ = a := by
      rw [← hgi]
    rw [this]
    exact hbag
  have hbout : b ∈ kahnOut ag := List.take_subset _ _ hbtake
  have hidxb : (kahnOut ag).indexOf b < i.1 := indexOf_lt_of_mem_take _ i.1 b hbtake
  have hidxa : (kahnOut ag).indexOf a = i.1 := by
    have h1 := List.indexOf_getElem hnd i.1 i.2
    have h2 : (kahnOut ag)[i.1] = a := by
      rw [← List.get_eq_getElem]
      exact hgi
    rw [h2] at h1
    exact h1
  exact ⟨hbout, haout, by omega⟩

/-! ## Depth-first ordering: invariants -/

lemma prefClosed_append (ag : Graph) (res : List String) (node : String)
    (hpc : PrefClosed ag res) (hdeps : ∀ d ∈ lookupG ag node, d ∈ res) :
    PrefClosed ag (res ++ [node]) := by
  intro i hi d hd
  have hi' : i < res.length + 1 := by simpa using hi
  rcases Nat.lt_or_ge i res.length with hilt | hige
  · have hget : (res ++ [node]).get ⟨i, hi⟩ = res.get ⟨i, hilt⟩ := by
      simp [List.get_eq_getElem, List.getElem_append_left hilt]
    rw [hget] at hd
    have hmem := hpc i hilt d hd
    rw [List.take_append_eq_append_take]
    exact List.mem_append.mpr (Or.inl hmem)
  · have hieq : i = res.length := by omega
    subst hieq
    have hget : (res ++ [node]).get ⟨res.length, hi⟩ = node := by simp
    rw [hget] at hd
    rw [List.take_left]
    exact hdeps d hd

/-- Full postcondition of the inner `dfs` of `dependency_first_dfs`: `visiting`
is restored, `visited` mirrors `result`, the node ends visited unless the
`visiting` guard fired, new visits are keys outside the entry `visiting` set,
and (on acyclic graphs, under the ancestor-path invariant) the output remains
prefix-closed. -/
lemma dfsVisit_post (ag : Graph) (hcl : Closed ag) :
    ∀ (fuel : Nat) (node : String) (st : DState),
      node ∈ keysOf ag →
      st.visiting.Nodup → (∀ x ∈ st.visiting, x ∈ keysOf ag) →
      (keysOf ag).length + 1 ≤ fuel + st.visiting.length →
      (∀ x, x ∈ st.visited ↔ x ∈ st.result) →
      st.result.Nodup →
      ((dfsVisit ag fuel node st).visiting = st.visiting) ∧
        (∀ x, x ∈ (dfsVisit ag fuel node st).visited ↔
          x ∈ (dfsVisit ag fuel node st).result) ∧
        (dfsVisit ag fuel node st).result.Nodup ∧
        (∀ x ∈ st.visited, x ∈ (dfsVisit ag fuel node st).visited) ∧
        (node ∈ (dfsVisit ag fuel node st).visited ∨ node ∈ st.visiting) ∧
        (∀ x ∈ (dfsVisit ag fuel node st).visited,
          x ∈ st.visited ∨ (x ∈ keysOf ag ∧ x ∉ st.visiting)) ∧
        (∃ E, (dfsVisit ag fuel node st).result = st.result ++ E) ∧
        (Acyclic ag → (∀ w ∈ st.visiting, Reaches ag w node) →
          PrefClosed ag st.result → PrefClosed ag (dfsVisit ag fuel node st).result) := by
  intro fuel
  induction fuel with
  | zero =>
    intro node st _ hvn hvk hfuel _ _
    exfalso
    have h1 : st.visiting.toFinset.card = st.visiting.length :=
      List.toFinset_card_of_nodup hvn
    have h2 : st.visiting.toFinset ⊆ (keysOf ag).toFinset := by
      intro x hx
      exact List.mem_toFinset.mpr (hvk x (List.mem_toFinset.mp hx))
    have h3 := Finset.card_le_card h2
    have h4 := List.toFinset_card_le (keysOf ag)
    omega
  | succ fuel ih =>
    intro node st hnk hvn hvk hfuel hsync hrn
    by_cases hvis : node ∈ st.visited
    · have hst : dfsVisit ag (fuel + 1) node st = st := by
        unfold dfsVisit
        rw [if_pos hvis]
      rw [hst]
      exact ⟨rfl, hsync, hrn, fun x hx => hx, Or.inl hvis, fun x hx => Or.inl hx,
        ⟨[], by simp⟩, fun _ _ h => h⟩
    · by_cases hving : node ∈ st.visiting
      · have hst : dfsVisit ag (fuel + 1) node st = st := by
          unfold dfsVisit
          rw [if_neg hvis, if_pos hving]
        rw [hst]
        exact ⟨rfl, hsync, hrn, fun x hx => hx, Or.inr hving, fun x hx => Or.inl hx,
          ⟨[], by simp⟩, fun _ _ h => h⟩
      · -- the real visit
        have hst : dfsVisit ag (fuel + 1) node st =
            (let st1 : DState := { st with visiting := node :: st.visiting }
             let st2 := (sortAsc (lookupG ag node)).foldl
               (fun s d => dfsVisit ag fuel d s) st1
             { st2 with
               visiting := st2.visiting.erase node
               visited := node :: st2.visited
               result := st2.result ++ [node] }) := by
          show (if node ∈ st.visited then st
            else if node ∈ st.visiting then st
            else
              (let st1 : DState := { st with visiting := node :: st.visiting }
               let st2 := (sortAsc (lookupG ag node)).foldl
                 (fun s d => dfsVisit ag fuel d s) st1
               { st2 with
                 visiting := st2.visiting.erase node
                 visited := node :: st2.visited
                 result := st2.result ++ [node] })) = _
          rw [if_neg hvis, if_neg hving]
        rw [hst]
        set st1 : DState := { st with visiting := node :: st.visiting } with hst1
        -- fold postcondition
        have foldPost : ∀ (ds : List String), (∀ d ∈ ds, d ∈ lookupG ag node) →
            ∀ s : DState, s.visiting = node :: st.visiting →
              (∀ x, x ∈ s.visited ↔ x ∈ s.result) → s.result.Nodup →
              (∀ x ∈ s.visited, x ∈ st.visited ∨ (x ∈ keysOf ag ∧ x ∉ node :: st.visiting)) →
              ((ds.foldl (fun s d => dfsVisit ag fuel d s) s).visiting = s.visiting) ∧
              (∀ x, x ∈ (ds.foldl (fun s d => dfsVisit ag fuel d s) s).visited ↔
                x ∈ (ds.foldl (fun s d => dfsVisit ag fuel d s) s).result) ∧
              (ds.foldl (fun s d => dfsVisit ag fuel d s) s).result.Nodup ∧
              (∀ x ∈ s.visited, x ∈ (ds.foldl (fun s d => dfsVisit ag fuel d s) s).visited) ∧
              (∀ x ∈ (ds.foldl (fun s d => dfsVisit ag fuel d s) s).visited,
                x ∈ st.visited ∨ (x ∈ keysOf ag ∧ x ∉ node :: st.visiting)) ∧
              (∃ E, (ds.foldl (fun s d => dfsVisit ag fuel d s) s).result = s.result ++ E) ∧
              (∀ d ∈ ds, d ∈ (ds.foldl (fun s d => dfsVisit ag fuel d s) s).visited ∨
                d ∈ node :: st.visiting) ∧
              (Acyclic ag → (∀ w ∈ st.visiting, Reaches ag w node) →
                PrefClosed ag s.result →
                PrefClosed ag (ds.foldl (fun s d => dfsVisit ag fuel d s) s).result) := by
          intro ds
          induction ds with
          | nil =>
            intro _ s hsv hssync hsrn hsnew
            exact ⟨rfl, hssync, hsrn, fun x hx => hx, hsnew, ⟨[], by simp⟩,
              fun d hd => absurd hd (List.not_mem_nil d), fun _ _ h => h⟩
          | cons d ds ihd =>
            intro hds s hsv hssync hsrn hsnew
            simp only [List.foldl_cons]
            have hdk : d ∈ keysOf ag :=
              lookupG_subset_keys ag hcl node d (hds d (List.mem_cons_self _ _))
            have hsvn : s.visiting.Nodup := by
              rw [hsv]
              exact List.nodup_cons.mpr ⟨hving, hvn⟩
            have hsvk : ∀ x ∈ s.visiting, x ∈ keysOf ag := by
              rw [hsv]
              intro x hx
              rcases List.mem_cons.mp hx with rfl | hx'
              · exact hnk
              · exact hvk x hx'
            have hsfuel : (keysOf ag).length + 1 ≤ fuel + s.visiting.length := by
              rw [hsv]
              simp only [List.length_cons]
              omega
            obtain ⟨p1, p2, p3, p4, p5, p6, p7, p8⟩ :=
              ih d s hdk hsvn hsvk hsfuel hssync hsrn
            set s' := dfsVisit ag fuel d s with hs'
            obtain ⟨q1, q2, q3, q4, q5, q6, q7, q8⟩ :=
              ihd (fun x hx => hds x (List.mem_cons_of_mem _ hx)) s'
                (by rw [p1, hsv]) p2 p3
                (by
                  intro x hx
                  rcases p6 x hx with h | h
                  · exact hsnew x h
                  · right
                    rw [← hsv]
                    exact h)
            refine ⟨by rw [q1, p1], q2, q3, ?_, q5, ?_, ?_, ?_⟩
            · intro x hx
              exact q4 x (p4 x hx)
            · obtain ⟨E1, hE1⟩ := p7
              obtain ⟨E2, hE2⟩ := q6
              exact ⟨E1 ++ E2, by rw [hE2, hE1, List.append_assoc]⟩
            · intro e he
              rcases List.mem_cons.mp he with rfl | he'
              · rcases p5 with h | h
                · exact Or.inl (q4 e h)
                · right
                  rwa [hsv] at h
              · exact q7 e he'
            · intro hacyc hpath hpcres
              apply q8 hacyc hpath
              apply p8 hacyc
              · intro w hw
                rw [hsv] at hw
                rcases List.mem_cons.mp hw with rfl | hw'
                · exact Relation.TransGen.single (hds d (List.mem_cons_self _ _))
                · exact Relation.TransGen.tail (hpath w hw')
                    (hds d (List.mem_cons_self _ _))
              · exact hpcres
        have hdsdeps : ∀ d ∈ sortAsc (lookupG ag node), d ∈ lookupG ag node := by
          intro d hd
          rwa [mem_sortAsc] at hd
        obtain ⟨r1, r2, r3, r4, r5, r6, r7, r8⟩ :=
          foldPost (sortAsc (lookupG ag node)) hdsdeps st1 rfl hsync hrn
            (fun x hx => Or.inl hx)
        set st2 := (sortAsc (lookupG ag node)).foldl (fun s d => dfsVisit ag fuel d s) st1
          with hst2
        have hnode2 : node ∉ st2.visited := by
          intro h
          rcases r5 node h with h' | h'
          · exact hvis h'
          · exact h'.2 (List.mem_cons_self _ _)
        have hnoderes : node ∉ st2.result := fun h => hnode2 ((r2 node).mpr h)
        refine ⟨?_, ?_, ?_, ?_, ?_, ?_, ?_, ?_⟩
        · show st2.visiting.erase node = st.visiting
          rw [r1]
          exact List.erase_cons_head node st.visiting
        · intro x
          show x ∈ node :: st2.visited ↔ x ∈ st2.result ++ [node]
          constructor
          · intro hx
            rcases List.mem_cons.mp hx with rfl | hx'
            · exact List.mem_append.mpr (Or.inr (List.mem_singleton.mpr rfl))
            · exact List.mem_append.mpr (Or.inl ((r2 x).mp hx'))
          · intro hx
            rcases List.mem_append.mp hx with hx' | hx'
            · exact List.mem_cons_of_mem _ ((r2 x).mpr hx')
            · rw [List.mem_singleton] at hx'
              subst hx'
              exact List.mem_cons_self _ _
        · show (st2.result ++ [node]).Nodup
          refine List.Nodup.append r3 (List.nodup_singleton node) ?_
          intro x hx hx'
          rw [List.mem_singleton] at hx'
          subst hx'
          exact hnoderes hx
        · intro x hx
          exact List.mem_cons_of_mem _ (r4 x hx)
        · exact Or.inl (List.mem_cons_self _ _)
        · intro x hx
          rcases List.mem_cons.mp hx with rfl | hx'
          · exact Or.inr ⟨hnk, hving⟩
          · rcases r5 x hx' with h | h
            · exact Or.inl h
            · exact Or.inr ⟨h.1, fun hx'' => h.2 (List.mem_cons_of_mem _ hx'')⟩
        · obtain ⟨E, hE⟩ := r6
          exact ⟨E ++ [node], by
            show st2.result ++ [node] = st.result ++ (E ++ [node])
            rw [hE, List.append_assoc]⟩
        · intro hacyc hpath hpcres
          show PrefClosed ag (st2.result ++ [node])
          refine prefClosed_append ag st2.result node (r8 hacyc hpath hpcres) ?_
          intro d hd
          have hd' : d ∈ sortAsc (lookupG ag node) := (mem_sortAsc _ d).mpr hd
          rcases r7 d hd' with h | h
          · exact (r2 d).mp h
          · exfalso
            rcases List.mem_cons.mp h with rfl | h'
            · exact hacyc d (Relation.TransGen.single hd)
            · exact hacyc node
                (Relation.TransGen.trans (Relation.TransGen.single hd) (hpath d h'))

/-- The whole driver loop of `dependency_first_dfs` (state after visiting all
nodes in ascending order). -/
def dfsOut (ag : Graph) : DState :=
  (sortAsc (keysOf ag)).foldl (fun st n => dfsVisit ag ((keysOf ag).length + 1) n st)
    ⟨[], [], []⟩

lemma dependencyFirstDfs_eq (g : Graph) :
    dependencyFirstDfs g = (dfsOut (normalizeGraph (resolveCycles g))).result := rfl

lemma dfsOut_spec (ag : Graph) (hcl : Closed ag) :
    (dfsOut ag).result.Nodup ∧
      (∀ x ∈ (dfsOut ag).result, x ∈ keysOf ag) ∧
      (∀ n ∈ keysOf ag, n ∈ (dfsOut ag).result) ∧
      (Acyclic ag → PrefClosed ag (dfsOut ag).result) := by
  have hfold : ∀ (ks : List String), (∀ n ∈ ks, n ∈ keysOf ag) →
      ∀ s : DState, s.visiting = [] → (∀ x, x ∈ s.visited ↔ x ∈ s.result) →
        s.result.Nodup → (∀ x ∈ s.visited, x ∈ keysOf ag) →
      ((ks.foldl (fun st n => dfsVisit ag ((keysOf ag).length + 1) n st) s).visiting = []) ∧
        (∀ x, x ∈ (ks.foldl (fun st n => dfsVisit ag ((keysOf ag).length + 1) n st) s).visited ↔
          x ∈ (ks.foldl (fun st n => dfsVisit ag ((keysOf ag).length + 1) n st) s).result) ∧
        (ks.foldl (fun st n => dfsVisit ag ((keysOf ag).length + 1) n st) s).result.Nodup ∧
        (∀ x ∈ (ks.foldl (fun st n => dfsVisit ag ((keysOf ag).length + 1) n st) s).visited,
          x ∈ keysOf ag) ∧
        (∀ x ∈ s.visited,
          x ∈ (ks.foldl (fun st n => dfsVisit ag ((keysOf ag).length + 1) n st) s).visited) ∧
        (∀ n ∈ ks,
          n ∈ (ks.foldl (fun st n => dfsVisit ag ((keysOf ag).length + 1) n st) s).visited) ∧
        ((Acyclic ag → PrefClosed ag s.result) → Acyclic ag →
          PrefClosed ag
            (ks.foldl (fun st n => dfsVisit ag ((keysOf ag).length + 1) n st) s).result) := by
    intro ks
    induction ks with
    | nil =>
      intro _ s hsv hsync hrn hvk
      exact ⟨hsv, hsync, hrn, hvk, fun x hx => hx, fun n hn => absurd hn (List.not_mem_nil n),
        fun h hacyc => h hacyc⟩
    | cons n ks ihk =>
      intro hks s hsv hsync hrn hvk
      simp only [List.foldl_cons]
      have hnk : n ∈ keysOf ag := hks n (List.mem_cons_self _ _)
      have hvn : s.visiting.Nodup := by rw [hsv]; exact List.nodup_nil
      have hvkk : ∀ x ∈ s.visiting, x ∈ keysOf ag := by
        rw [hsv]; intro x hx; cases hx
      have hfuel : (keysOf ag).length + 1 ≤ (keysOf ag).length + 1 + s.visiting.length := by
        omega
      obtain ⟨p1, p2, p3, p4, p5, p6, p7, p8⟩ :=
        dfsVisit_post ag hcl ((keysOf ag).length + 1) n s hnk hvn hvkk hfuel hsync hrn
      set s' := dfsVisit ag ((keysOf ag).length + 1) n s with hs'
      obtain ⟨q1, q2, q3, q4, q5, q6, q7⟩ :=
        ihk (fun x hx => hks x (List.mem_cons_of_mem _ hx)) s' (by rw [p1, hsv]) p2 p3
          (by
            intro x hx
            rcases p6 x hx with h | h
            · exact hvk x h
            · exact h.1)
      refine ⟨q1, q2, q3, q4, ?_, ?_, ?_⟩
      · intro x hx
        exact q5 x (p4 x hx)
      · intro m hm
        rcases List.mem_cons.mp hm with rfl | hm'
        · rcases p5 with h | h
          · exact q5 m h
          · rw [hsv] at h
            cases h
        · exact q6 m hm'
      · intro hpcs hacyc
        apply q7 _ hacyc
        intro _
        apply p8 hacyc
        · rw [hsv]
          intro w hw
          cases hw
        · exact hpcs hacyc
  obtain ⟨h1, h2, h3, h4, h5, h6, h7⟩ :=
    hfold (sortAsc (keysOf ag)) (fun x hx => (mem_sortAsc _ x).mp hx) ⟨[], [], []⟩ rfl
      (fun x => Iff.rfl) List.nodup_nil (fun x hx => absurd hx (List.not_mem_nil x))
  refine ⟨h3, ?_, ?_, ?_⟩
  · intro x hx
    exact h4 x ((h2 x).mpr hx)
  · intro n hn
    exact (h2 n).mp (h6 n ((mem_sortAsc _ n).mpr hn))
  · intro hacyc
    exact h7 (fun _ => (by intro i hi; cases hi)) hacyc

/-- Precedence extraction from prefix closure. -/
lemma precedes_of_prefClosed (ag : Graph) (out : List String) (hnd : out.Nodup)
    (hpc : PrefClosed ag out) (a b : String) (hb : b ∈ lookupG ag a) (ha : a ∈ out) :
    precedes out b a := by
  obtain ⟨i, hgi⟩ := List.mem_iff_get.mp ha
  have hbtake : b ∈ out.take i.1 := by
    refine hpc i.1 i.2 b ?_
    have hget : out.get ⟨i.1, i.2⟩ = a := by rw [← hgi]
    rw [hget]
    exact hb
  have hbout : b ∈ out := List.take_subset _ _ hbtake
  have hidxb : out.indexOf b < i.1 := indexOf_lt_of_mem_take _ i.1 b hbtake
  have hidxa : out.indexOf a = i.1 := by
    have h1 := List.indexOf_getElem hnd i.1 i.2
    have h2 : out[i.1] = a := by
      rw [← List.get_eq_getElem]
      exact hgi
    rw [h2] at h1
    exact h1
  exact ⟨hbout, ha, by omega⟩

/-- `dependency_first_dfs` emits every node of the resolved graph exactly once. -/
lemma dfs_perm (g : Graph) (hwf : WF g) :
    (dependencyFirstDfs g).Perm (keysOf (normalizeGraph (resolveCycles g))) := by
  have hag' : normalizeGraph (resolveCycles g) = resolveCycles g := orderings_graph_eq g
  set ag := normalizeGraph (resolveCycles g) with hag
  have hkn : (keysOf ag).Nodup := by rw [hag']; exact keys_nodup_resolveCycles g hwf.1
  have hcl : Closed ag := by rw [hag']; exact closed_resolveCycles g
  obtain ⟨h1, h2, h3, h4⟩ := dfsOut_spec ag hcl
  rw [dependencyFirstDfs_eq, ← hag]
  exact (List.perm_ext_iff_of_nodup h1 hkn).mpr (fun a => ⟨fun h => h2 a h, fun h => h3 a h⟩)

/-- Under acyclicity of the resolved graph, `dependency_first_dfs` satisfies
the dependencies-first precedence on every surviving edge. -/
lemma dfs_precedes (g : Graph) (hwf : WF g) (hacyc : Acyclic (resolveCycles g)) :
    ∀ a b, b ∈ lookupG (resolveCycles g) a → precedes (dependencyFirstDfs g) b a := by
  have hag' : normalizeGraph (resolveCycles g) = resolveCycles g := orderings_graph_eq g
  set ag := normalizeGraph (resolveCycles g) with hag
  have hcl : Closed ag := by rw [hag']; exact closed_resolveCycles g
  have hacyc' : Acyclic ag := by rw [hag']; exact hacyc
  obtain ⟨h1, h2, h3, h4⟩ := dfsOut_spec ag hcl
  intro a b hb
  have hbag : b ∈ lookupG ag a := by rw [hag']; exact hb
  have hak : a ∈ keysOf ag := lookupG_ne_nil_mem_keys ag a (List.ne_nil_of_mem hbag)
  rw [dependencyFirstDfs_eq, ← hag]
  exact precedes_of_prefClosed ag _ h1 (h4 hacyc') a b hbag (h3 a hak)

/-- **C10.** For every well-formed graph — including graphs on which cycle
resolution fails to converge — `topological_sort` and `dependency_first_dfs`
each return a permutation of the resolved (normalized) graph's node set: every
node exactly once, no duplicates, no omissions.  (The fallback that appends
undrained nodes in ascending order is part of the verified `topologicalSort`
definition.) -/
theorem orderings_visit_every_node_once (g : Graph) (hwf : WF g) :
    (topologicalSort g).Perm (keysOf (normalizeGraph (resolveCycles g))) ∧
      (dependencyFirstDfs g).Perm (keysOf (normalizeGraph (resolveCycles g))) :=
  ⟨topo_perm g hwf, dfs_perm g hwf⟩

/-- The three-node chain `{A: {B}, B: {C}, C: {}}`. -/
def chainGraph : Graph := [("A", ["B"]), ("B", ["C"]), ("C", [])]

/-- Witness for `orderings_visit_every_node_once` on the complete digraph on
six nodes, where resolution does not converge. -/
theorem orderings_visit_every_node_once_witness :
    (topologicalSort k6Graph).Perm (keysOf (normalizeGraph (resolveCycles k6Graph))) ∧
      (dependencyFirstDfs k6Graph).Perm (keysOf (normalizeGraph (resolveCycles k6Graph))) :=
  orderings_visit_every_node_once k6Graph (by decide)

/-- **C3 (amended).** Whenever the resolved graph is acyclic (in particular
whenever resolution converges), every surviving edge `A→B` has `B` strictly
before `A` in both orderings. -/
theorem ordering_precedence_of_acyclic (g : Graph) (hwf : WF g)
    (hacyc : Acyclic (resolveCycles g)) :
    ∀ a b, b ∈ lookupG (resolveCycles g) a →
      precedes (topologicalSort g) b a ∧ precedes (dependencyFirstDfs g) b a :=
  fun a b hb => ⟨topo_precedes g hwf hacyc a b hb, dfs_precedes g hwf hacyc a b hb⟩

/-- Witness for `ordering_precedence_of_acyclic` on the chain `A→B→C`. -/
theorem ordering_precedence_of_acyclic_witness :
    precedes (topologicalSort chainGraph) "B" "A" ∧
      precedes (dependencyFirstDfs chainGraph) "B" "A" := by
  have hres : resolveCycles chainGraph = chainGraph := by decide
  refine ordering_precedence_of_acyclic chainGraph (by decide) ?_ "A" "B" (by decide)
  apply acyclic_of_rank (resolveCycles chainGraph)
    (fun s => if s = "C" then 0 else if s = "B" then 1 else 2)
  intro a b hstep
  unfold StepRel at hstep
  rw [hres] at hstep
  have hak : a ∈ keysOf chainGraph :=
    lookupG_ne_nil_mem_keys _ a (List.ne_nil_of_mem hstep)
  have hkeys : keysOf chainGraph = ["A", "B", "C"] := rfl
  rw [hkeys] at hak
  rcases List.mem_cons.mp hak with rfl | hak
  · have hl : lookupG chainGraph "A" = ["B"] := rfl
    rw [hl] at hstep
    rcases List.mem_singleton.mp hstep with rfl
    decide
  · rcases List.mem_cons.mp hak with rfl | hak
    · have hl : lookupG chainGraph "B" = ["C"] := rfl
      rw [hl] at hstep
      rcases List.mem_singleton.mp hstep with rfl
      decide
    · rcases List.mem_cons.mp hak with rfl | hak
      · have hl : lookupG chainGraph "C" = [] := rfl
        rw [hl] at hstep
        cases hstep
      · cases hak

/-- **C9.** `resolve_cycles` never adds nodes or edges: its result has exactly
the node (key) set of the normalized input, and every surviving edge was an
edge of the normalized input. -/
theorem resolve_same_nodes_subset_edges (g : Graph) :
    keysOf (resolveCycles g) = keysOf (normalizeGraph g) ∧
      ∀ u v, v ∈ lookupG (resolveCycles g) u → v ∈ lookupG (normalizeGraph g) u := by
  constructor
  · exact keysOf_resolveLoop _ _ _
  · intro u v hv
    exact lookup_resolveLoop_subset _ _ _ u v hv

/-! ### Core Influence Score (CIS) subsystem

Embedding of `src/dependency_analyzer/filter_components_by_cis.py`, with the
conventions of the header plus:
* Python `float` values are exact rationals `ℚ`; `math.isclose` is modelled
  by its exact default formula (`rel_tol = 1e-9`, `abs_tol = 0.0`).
* A component mapping (each value carrying a `depends_on` list) is an
  association list `List (String × List String)` of id and `depends_on`.
* `random.Random(seed).sample(range(n), k)` — consulted only when
  `0 < samples < n` — is modelled by an explicit
  `sampler : ℕ → ℕ → List ℕ` parameter taking the seed and `k`.
* The reusable work buffers of `compute_betweenness` are functions `ℕ → _`
  updated with `updN`; the `stack` list is stored most-recent-push-first, so
  popping it empty is a left-to-right fold over the stored list.
-/

/-- The frozen `Metrics` dataclass (floats as `ℚ`, `int` fields as `ℤ`). -/
structure Metrics where
  in_degree : ℤ
  out_degree : ℤ
  betweenness : ℚ
  pagerank : ℚ
  score : ℚ
deriving DecidableEq

/-- Python `d.get(k, 0.0)` on a string-keyed float dict. -/
def getQ (l : List (String × ℚ)) (k : String) : ℚ :=
  ((l.find? (fun p => p.1 == k)).map Prod.snd).getD 0

/-- `_min_max_normalize` (filter_components_by_cis.py:73-81); the guard is
`math.isclose(min_v, max_v)` with its default tolerances. -/
def minMaxNormalize (values : List (String × ℚ)) : List (String × ℚ) :=
  match values with
  | [] => []
  | v :: vs =>
    let min_v := (vs.map Prod.snd).foldl min v.2
    let max_v := (vs.map Prod.snd).foldl max v.2
    if |min_v - max_v| ≤ 1 / 1000000000 * max |min_v| |max_v| then
      values.map (fun p => (p.1, 0))
    else
      values.map (fun p => (p.1, (p.2 - min_v) / (max_v - min_v)))

/-- Python set-add `g[u].add(v)` on an entry of an association-list graph:
appends `v` to `u`'s list unless already present. -/
def addToEntry (g : Graph) (u v : String) : Graph :=
  g.map (fun p =>
    if p.1 = u then (p.1, if p.2.contains v then p.2 else p.2 ++ [v]) else p)

/-- `build_graph_from_components` (topo_sort.py:258-287): one node per
component id, and an edge A→B for every `depends_on` entry that is itself a
component id. -/
def buildGraphFromComponents (components : List (String × List String)) : Graph :=
  components.foldl
    (fun g p =>
      let g1 := if (keysOf g).contains p.1 then g else g ++ [(p.1, [])]
      p.2.foldl
        (fun g2 dep =>
          if (components.map Prod.fst).contains dep then addToEntry g2 p.1 dep
          else g2)
        g1)
    []

/-- `build_in_out_edges_from_components` (filter_components_by_cis.py:84-102). -/
def buildInOutEdges (components : List (String × List String)) : Graph × Graph :=
  let graph := buildGraphFromComponents components
  let nodes := (components.map Prod.fst).dedup
  let out_edges := nodes.map (fun node => (node, lookupG graph node))
  let in_edges := out_edges.foldl
    (fun ie p => p.2.foldl
      (fun ie2 dst =>
        if (keysOf ie2).contains dst then addToEntry ie2 dst p.1 else ie2)
      ie)
    (nodes.map (fun node => (node, ([] : List String))))
  (out_edges, in_edges)

/-- `len(out_edges[node])`: out-degree in the adjacency list. -/
def outDeg (g : Graph) (node : String) : ℕ :=
  (lookupG g node).length

/-- The incoming-source list `in_edges[dst]` precomputed by `compute_pagerank`
(filter_components_by_cis.py:134-138): sources in entry order, one occurrence
per listed edge. -/
def inSrcs (g : Graph) (dst : String) : List String :=
  g.foldl (fun acc p => p.2.foldl (fun a d => if d = dst then a ++ [p.1] else a) acc) []

/-- `sum(prev[node] for node in nodes if out_degree[node] == 0)`
(filter_components_by_cis.py:147). -/
def danglingMass (g : Graph) (prev : String → ℚ) : ℚ :=
  ((keysOf g).filter (fun node => outDeg g node == 0)).foldl
    (fun s node => s + prev node) 0

/-- The link mass `s` accumulated for one node
(filter_components_by_cis.py:153-158). -/
def linkSum (g : Graph) (prev : String → ℚ) (node : String) : ℚ :=
  (inSrcs g node).foldl
    (fun s src => if 0 < outDeg g src then s + prev src / (outDeg g src : ℚ) else s) 0

/-- One power-iteration step of `compute_pagerank`
(filter_components_by_cis.py:144-159); the middle `if` is Python's truthiness
test `if dangling_share:`. -/
def prStep (g : Graph) (damping : ℚ) (prev : String → ℚ) : String → ℚ :=
  fun node =>
    (1 - damping) / ((keysOf g).length : ℚ) +
      (if damping * danglingMass g prev / ((keysOf g).length : ℚ) = 0 then 0
       else damping * danglingMass g prev / ((keysOf g).length : ℚ)) +
      damping * linkSum g prev node

/-- The iteration loop of `compute_pagerank` with its L1 convergence break
(filter_components_by_cis.py:142-164); the fuel is `max_iter`. -/
def prLoop (g : Graph) (damping tol : ℚ) : ℕ → (String → ℚ) → (String → ℚ)
  | 0, prev => prev
  | fuel + 1, prev =>
    let r := prStep g damping prev
    if ((keysOf g).map (fun node => |r node - prev node|)).sum < tol then r
    else prLoop g damping tol fuel r

/-- `compute_pagerank` (filter_components_by_cis.py:116-166), returning the
rank dict as an association list over the node list. -/
def computePagerank (g : Graph) (damping : ℚ) (max_iter : ℕ) (tol : ℚ) :
    List (String × ℚ) :=
  let nodes := keysOf g
  if nodes.length = 0 then []
  else
    let r := prLoop g damping tol max_iter (fun _ => 1 / (nodes.length : ℚ))
    nodes.map (fun node => (node, r node))

/-- The index dict `{n: i for i, n in enumerate(nodes)}` of
`_build_index_graph`: repeated dict insertion keeps the last occurrence. -/
def idxOf (nodes : List String) (s : String) : Option ℕ :=
  ((nodes.enum.filter (fun p => p.2 == s)).getLast?).map Prod.fst

/-- `_build_index_graph` (filter_components_by_cis.py:105-113). -/
def buildIndexGraph (g : Graph) : List String × List (List ℕ) :=
  let nodes := keysOf g
  let adjacency := g.foldl
    (fun adj p =>
      match idxOf nodes p.1 with
      | some u => adj.set u (p.2.filterMap (idxOf nodes))
      | none => adj)
    (List.replicate nodes.length ([] : List ℕ))
  (nodes, adjacency)

/-- Pointwise update of an index-keyed work buffer (`buf[i] = v`). -/
def updN {α : Type} (f : ℕ → α) (i : ℕ) (v : α) : ℕ → α :=
  fun j => if j = i then v else f j

/-- Working state of one Brandes source run: the BFS deque `q` (head =
front), the `stack` (head = most recent push) and the reusable buffers
(filter_components_by_cis.py:206-213). -/
structure SPState where
  q : List ℕ
  stack : List ℕ
  pred : ℕ → List ℕ
  sigma : ℕ → ℚ
  dist : ℕ → ℤ
  delta : ℕ → ℚ
  touched : List ℕ

/-- The BFS loop of one Brandes source (filter_components_by_cis.py:225-236).
Each iteration dequeues one vertex and every vertex is enqueued at most once
per source, so fuel `n + 1` never runs out. -/
def bfsLoop (adj : List (List ℕ)) : ℕ → SPState → SPState
  | 0, st => st
  | fuel + 1, st =>
    match st.q with
    | [] => st
    | v :: qrest =>
      let st1 : SPState := { st with q := qrest, stack := v :: st.stack }
      let dv := st1.dist v
      let st2 := (adj.getD v []).foldl
        (fun s w =>
          let s1 : SPState :=
            if s.dist w < 0 then
              { s with dist := updN s.dist w (dv + 1), q := s.q ++ [w],
                       touched := s.touched ++ [w] }
            else s
          if s1.dist w = dv + 1 then
            { s1 with sigma := updN s1.sigma w (s1.sigma w + s1.sigma v),
                      pred := updN s1.pred w (s1.pred w ++ [v]) }
          else s1)
        st1
      bfsLoop adj fuel st2

/-- The dependency-accumulation loop (filter_components_by_cis.py:238-244),
consuming the stack most-recent-push-first. -/
def accumFold (src : ℕ) : List ℕ → (ℕ → ℚ) → SPState → (ℕ → ℚ) × SPState
  | [], cb, st => (cb, st)
  | w :: rest, cb, st =>
    let st1 := (st.pred w).foldl
      (fun s v =>
        if s.sigma w = 0 then s
        else { s with
          delta := updN s.delta v (s.delta v + s.sigma v / s.sigma w * (1 + s.delta w)) })
      st
    let cb1 := if w = src then cb else updN cb w (cb w + st1.delta w)
    accumFold src rest cb1 st1

/-- One source iteration of `compute_betweenness`
(filter_components_by_cis.py:215-250), ending with the touched-reset loop. -/
def brandesSource (adj : List (List ℕ)) (fuel : ℕ)
    (acc : (ℕ → ℚ) × SPState) (s : ℕ) : (ℕ → ℚ) × SPState :=
  let st0 : SPState :=
    { acc.2 with q := [s], stack := [], touched := [s],
                 dist := updN acc.2.dist s 0, sigma := updN acc.2.sigma s 1 }
  let st1 := bfsLoop adj fuel st0
  let r := accumFold s st1.stack acc.1 st1
  let st2 := r.2.touched.foldl
    (fun s2 v =>
      { s2 with dist := updN s2.dist v (-1), sigma := updN s2.sigma v 0,
                delta := updN s2.delta v 0, pred := updN s2.pred v [] })
    r.2
  (r.1, st2)

/-- `compute_betweenness` (filter_components_by_cis.py:169-253).  The
`sampler` argument stands for `random.Random(seed).sample(range(n), k)` and
is consulted only in the `0 < samples < n` branch. -/
def computeBetweenness (g : Graph) (samples : ℤ) (seed : ℕ)
    (sampler : ℕ → ℕ → List ℕ) : List (String × ℚ) :=
  let pr := buildIndexGraph g
  let nodes := pr.1
  let adj := pr.2
  let n := nodes.length
  if n = 0 then []
  else if samples < 0 then nodes.map (fun node => (node, 0))
  else
    let sources : List ℕ :=
      if samples = 0 ∨ (n : ℤ) ≤ samples then List.range n
      else sampler seed samples.toNat
    let scale : ℚ :=
      if samples = 0 ∨ (n : ℤ) ≤ samples then 1
      else (n : ℚ) / (sources.length : ℚ)
    let init : (ℕ → ℚ) × SPState :=
      (fun _ => 0,
       { q := [], stack := [], pred := fun _ => [], sigma := fun _ => 0,
         dist := fun _ => -1, delta := fun _ => 0, touched := [] })
    let r := sources.foldl (brandesSource adj (n + 1)) init
    (List.range n).map (fun i => (nodes.getD i "", r.1 i * scale))

/-- `compute_metrics` (filter_components_by_cis.py:256-292); `compute_pagerank`
is called with its default tolerance `1e-8`, and the `int(...)` degree fields
equal the respective adjacency-list lengths. -/
def computeMetrics (out_edges in_edges : Graph) (alpha beta gamma : ℚ)
    (betweenness_samples : ℤ) (betweenness_seed : ℕ)
    (pagerank_damping : ℚ) (pagerank_iters : ℕ)
    (sampler : ℕ → ℕ → List ℕ) : List (String × Metrics) :=
  let nodes := keysOf out_edges
  let in_deg := nodes.map (fun node => (node, ((lookupG in_edges node).length : ℚ)))
  let out_deg := nodes.map (fun node => (node, ((lookupG out_edges node).length : ℚ)))
  let pr := computePagerank out_edges pagerank_damping pagerank_iters (1 / 100000000)
  let bc := computeBetweenness out_edges betweenness_samples betweenness_seed sampler
  let in_n := minMaxNormalize in_deg
  let out_n := minMaxNormalize out_deg
  let bc_n := minMaxNormalize bc
  let pr_n := minMaxNormalize pr
  nodes.map (fun node =>
    (node,
     { in_degree := ((lookupG in_edges node).length : ℤ)
       out_degree := ((lookupG out_edges node).length : ℤ)
       betweenness := getQ bc node
       pagerank := getQ pr node
       score := alpha * getQ in_n node + beta * getQ out_n node +
                gamma * getQ bc_n node + getQ pr_n node }))

/-- `metrics[cid]` (total with a zero default; only applied to present keys). -/
def lookupM (metrics : List (String × Metrics)) (cid : String) : Metrics :=
  ((metrics.find? (fun p => p.1 == cid)).map Prod.snd).getD
    { in_degree := 0, out_degree := 0, betweenness := 0, pagerank := 0, score := 0 }

/-- Python's sort key `(-metrics[cid].score, cid)` compared lexicographically:
descending score, ties broken by ascending identifier. -/
def RankLE (metrics : List (String × Metrics)) (a b : String) : Prop :=
  (lookupM metrics b).score < (lookupM metrics a).score ∨
    ((lookupM metrics a).score = (lookupM metrics b).score ∧ SLe a b)

instance (metrics : List (String × Metrics)) : DecidableRel (RankLE metrics) :=
  fun a b => by unfold RankLE; infer_instance

/-- The kept count `max(1, min(ceil(N * (p / 100)), N))`
(filter_components_by_cis.py:303-304). -/
def selectK (n : ℕ) (p : ℚ) : ℤ :=
  max 1 (min (Int.ceil ((n : ℚ) * (p / 100))) (n : ℤ))

/-- `select_top_percent` (filter_components_by_cis.py:295-308). -/
def selectTopPercent (metrics : List (String × Metrics)) (p : ℚ) : List String :=
  if p ≤ 0 then []
  else
    let ids := metrics.map Prod.fst
    if 100 ≤ p then sortAsc ids
    else (List.insertionSort (RankLE metrics) ids).take (selectK ids.length p).toNat

instance (metrics : List (String × Metrics)) : IsTotal String (RankLE metrics) := by
  constructor
  intro a b
  unfold RankLE
  rcases lt_trichotomy (lookupM metrics a).score (lookupM metrics b).score with h | h | h
  · exact Or.inr (Or.inl h)
  · rcases total_of SLe a b with hs | hs
    · exact Or.inl (Or.inr ⟨h, hs⟩)
    · exact Or.inr (Or.inr ⟨h.symm, hs⟩)
  · exact Or.inl (Or.inl h)

instance (metrics : List (String × Metrics)) : IsTrans String (RankLE metrics) := by
  constructor
  intro a b c hab hbc
  unfold RankLE at hab hbc ⊢
  rcases hab with h1 | h1
  · rcases hbc with h2 | h2
    · exact Or.inl (h2.trans h1)
    · exact Or.inl (by rw [← h2.1]; exact h1)
  · rcases hbc with h2 | h2
    · exact Or.inl (by rw [h1.1]; exact h2)
    · exact Or.inr ⟨h1.1.trans h2.1, sle_trans h1.2 h2.2⟩

/-- **C7.** `select_top_percent`: `p ≤ 0` yields the empty selection;
`p ≥ 100` yields all identifiers sorted ascending; otherwise the first
`max(1, min(⌈N·p/100⌉, N))` entries of the ranking by descending score with
ties broken by ascending identifier — and for a non-empty node set the
selection has exactly that clamped length. -/
theorem select_top_percent_spec (metrics : List (String × Metrics)) (p : ℚ) :
    selectTopPercent metrics p =
      (if p ≤ 0 then []
       else if 100 ≤ p then sortAsc (metrics.map Prod.fst)
       else (List.insertionSort (RankLE metrics) (metrics.map Prod.fst)).take
         (selectK (metrics.map Prod.fst).length p).toNat) ∧
      (sortAsc (metrics.map Prod.fst)).Perm (metrics.map Prod.fst) ∧
      (sortAsc (metrics.map Prod.fst)).Sorted SLe ∧
      (List.insertionSort (RankLE metrics) (metrics.map Prod.fst)).Perm
        (metrics.map Prod.fst) ∧
      (List.insertionSort (RankLE metrics) (metrics.map Prod.fst)).Sorted
        (RankLE metrics) ∧
      (0 < p → p < 100 → metrics ≠ [] →
        (selectTopPercent metrics p).length
          = (selectK (metrics.map Prod.fst).length p).toNat) := by
  refine ⟨rfl, List.perm_insertionSort SLe _, List.sorted_insertionSort SLe _,
    List.perm_insertionSort (RankLE metrics) _,
    List.sorted_insertionSort (RankLE metrics) _, ?_⟩
  intro hp0 hp100 hne
  have hN : 0 < (metrics.map Prod.fst).length := by
    rw [List.length_map]
    exact List.length_pos.mpr hne
  have hK : (selectK (metrics.map Prod.fst).length p).toNat
      ≤ (metrics.map Prod.fst).length := by
    unfold selectK
    have hmin : min (Int.ceil (((metrics.map Prod.fst).length : ℚ) * (p / 100)))
        ((metrics.map Prod.fst).length : ℤ) ≤ ((metrics.map Prod.fst).length : ℤ) :=
      min_le_right _ _
    have h1 : (1 : ℤ) ≤ ((metrics.map Prod.fst).length : ℤ) := by exact_mod_cast hN
    omega
  unfold selectTopPercent
  rw [if_neg (not_le.mpr hp0), if_neg (not_le.mpr hp100), List.length_take,
    List.length_insertionSort]
  omega

/-- Concrete two-component metrics table used to instantiate C7. -/
def c7Metrics : List (String × Metrics) :=
  [("A", ⟨0, 0, 0, 0, 0⟩), ("B", ⟨0, 0, 0, 0, 1⟩)]

/-- Witness: the hypotheses of `select_top_percent_spec`'s length clause hold
at `p = 50` on a two-entry metrics table, and the selection keeps
`max(1, min(⌈2·50/100⌉, 2)) = 1` identifier. -/
theorem select_top_percent_spec_witness :
    0 < (50 : ℚ) ∧ (50 : ℚ) < 100 ∧ c7Metrics ≠ [] ∧
      (selectTopPercent c7Metrics 50).length
        = (selectK (c7Metrics.map Prod.fst).length 50).toNat :=
  ⟨by decide, by decide, by decide,
    (select_top_percent_spec c7Metrics 50).2.2.2.2.2 (by decide) (by decide) (by decide)⟩

set_option maxHeartbeats 1600000 in
/-- **C5.** `compute_betweenness` with `samples = 0` (exact mode) on the
three-node path graph A→B→C (A depends on B, B depends on C) returns a
strictly positive betweenness for B — the computed dict is exactly
A ↦ 0, B ↦ 1, C ↦ 0 — and exactly 0 for both A and C. -/
theorem betweenness_exact_path_graph :
    computeBetweenness chainGraph 0 0 (fun _ _ => []) = [("A", 0), ("B", 1), ("C", 0)] ∧
      0 < getQ (computeBetweenness chainGraph 0 0 (fun _ _ => [])) "B" ∧
      getQ (computeBetweenness chainGraph 0 0 (fun _ _ => [])) "A" = 0 ∧
      getQ (computeBetweenness chainGraph 0 0 (fun _ _ => [])) "C" = 0 := by
  have hbig : buildIndexGraph chainGraph = (["A", "B", "C"], [[1], [2], []]) := by decide
  have hr : List.range 3 = [0, 1, 2] := by decide
  have heq : computeBetweenness chainGraph 0 0 (fun _ _ => [])
      = [("A", 0), ("B", 1), ("C", 0)] := by
    norm_num [computeBetweenness, hbig, hr, brandesSource, bfsLoop, accumFold, updN]
  refine ⟨heq, ?_, ?_, ?_⟩ <;> rw [heq] <;> decide

/-- The command-line arguments of `filter_components_by_cis.main`
(filter_components_by_cis.py:330-373) after parsing. -/
structure Args where
  output : String
  top_percent : ℚ
  alpha : ℚ
  beta : ℚ
  gamma : ℚ
  betweenness_samples : ℤ
  betweenness_seed : ℕ
  pagerank_damping : ℚ
  pagerank_iters : ℕ
  print_top_percent : ℚ
  print_top : Option ℤ

/-- Observable outcome of `main`: the files written (path, selected component
ids) and the process exit code (`raise SystemExit(msg)` exits with code 1;
stdout printing is not a file write). -/
structure MainResult where
  writes : List (String × List String)
  exitCode : ℕ
deriving DecidableEq

/-- The adaptive betweenness sample count (filter_components_by_cis.py:384-390). -/
def mainBetSamples (args : Args) (n : ℕ) : ℤ :=
  if 0 < args.betweenness_samples then min args.betweenness_samples (n : ℤ)
  else args.betweenness_samples

/-- The metrics computed by `main` (filter_components_by_cis.py:392-402). -/
def mainMetrics (args : Args) (components : List (String × List String))
    (sampler : ℕ → ℕ → List ℕ) : List (String × Metrics) :=
  let oe := (buildInOutEdges components).1
  computeMetrics oe (buildInOutEdges components).2 args.alpha args.beta args.gamma
    (mainBetSamples args oe.length) args.betweenness_seed
    args.pagerank_damping args.pagerank_iters sampler

/-- The ids selected and written by `main` (filter_components_by_cis.py:404-405). -/
def mainSelected (args : Args) (components : List (String × List String))
    (sampler : ℕ → ℕ → List ℕ) : List String :=
  selectTopPercent (mainMetrics args components sampler) args.top_percent

/-- `main` after argument parsing and input loading
(filter_components_by_cis.py:375-460): `components` stands for the loaded
dependency-graph JSON.  The mutual-exclusion test is
`args.print_top is not None and args.print_top_percent and
args.print_top_percent > 0`, checked only after the filtered output has been
written (and never reached when the graph is empty). -/
def mainCore (args : Args) (components : List (String × List String))
    (sampler : ℕ → ℕ → List ℕ) : MainResult :=
  let out_edges := (buildInOutEdges components).1
  let n := out_edges.length
  if n = 0 then { writes := [(args.output, [])], exitCode := 0 }
  else
    let selected := mainSelected args components sampler
    if args.print_top.isSome && !(args.print_top_percent == 0)
        && decide (0 < args.print_top_percent) then
      { writes := [(args.output, selected)], exitCode := 1 }
    else
      { writes := [(args.output, selected)], exitCode := 0 }

/-- An argument vector supplying both `--print-top 3` and
`--print-top-percent 5` (all other values at their parser defaults). -/
def bothFlagsArgs : Args :=
  { output := "filtered.json", top_percent := 100, alpha := 1, beta := 1, gamma := 1,
    betweenness_samples := 200, betweenness_seed := 0, pagerank_damping := 17 / 20,
    pagerank_iters := 50, print_top_percent := 5, print_top := some 3 }

/-- Counterexample to C8: with both `--print-top` and `--print-top-percent`
supplied but an empty component set, `main` takes the `n == 0` early return
*before* the mutual-exclusion check: it writes the (empty) filtered output
and exits 0 — no fatal usage error, no non-zero exit. -/
theorem cis_flag_conflict_counterexample :
    (mainCore bothFlagsArgs [] (fun _ _ => [])).exitCode = 0 ∧
      (mainCore bothFlagsArgs [] (fun _ _ => [])).writes = [("filtered.json", [])] :=
  ⟨rfl, rfl⟩

/-- **C8 (amended).** Whenever the loaded component set is non-empty, supplying
both `--print-top` and a positive `--print-top-percent` makes `main` raise the
fatal usage error (non-zero process exit), and its only file side effect is
the primary filtered output, already written before the check runs. -/
theorem cis_flag_conflict_fatal_after_write (args : Args)
    (components : List (String × List String)) (sampler : ℕ → ℕ → List ℕ)
    (hne : components ≠ []) (hpt : args.print_top.isSome = true)
    (hpp : 0 < args.print_top_percent) :
    (mainCore args components sampler).exitCode ≠ 0 ∧
      (mainCore args components sampler).writes
        = [(args.output, mainSelected args components sampler)] := by
  have hn : ¬ ((buildInOutEdges components).1.length = 0) := by
    intro h
    apply hne
    have h1 : (buildInOutEdges components).1.length
        = (components.map Prod.fst).dedup.length := by
      simp [buildInOutEdges]
    rw [h1] at h
    have h2 : (components.map Prod.fst).dedup = [] := List.length_eq_zero.mp h
    have h3 : components.map Prod.fst = [] := (List.dedup_eq_nil (components.map Prod.fst)).mp h2
    exact List.map_eq_nil_iff.mp h3
  have hb : (args.print_top.isSome && !(args.print_top_percent == 0)
      && decide (0 < args.print_top_percent)) = true := by
    rw [hpt]
    simp only [Bool.true_and, Bool.and_eq_true, Bool.not_eq_true', beq_eq_false_iff_ne,
      ne_eq, decide_eq_true_iff]
    exact ⟨fun h => absurd h (ne_of_gt hpp), hpp⟩
  simp only [mainCore]
  rw [if_neg hn, if_pos hb]
  exact ⟨Nat.one_ne_zero, rfl⟩

/-- Witness: `cis_flag_conflict_fatal_after_write` instantiated on a single
component with both printing flags set. -/
theorem cis_flag_conflict_fatal_after_write_witness :
    ([("A", ([] : List String))] ≠ ([] : List (String × List String))) ∧
      bothFlagsArgs.print_top.isSome = true ∧
      0 < bothFlagsArgs.print_top_percent ∧
      (mainCore bothFlagsArgs [("A", [])] (fun _ _ => [])).exitCode ≠ 0 ∧
      (mainCore bothFlagsArgs [("A", [])] (fun _ _ => [])).writes
        = [(bothFlagsArgs.output, mainSelected bothFlagsArgs [("A", [])] (fun _ _ => []))] := by
  have h := cis_flag_conflict_fatal_after_write bothFlagsArgs [("A", [])]
    (fun _ _ => []) (by decide) (by decide) (by decide)
  exact ⟨by decide, by decide, by decide, h.1, h.2⟩

/-! #### Rational list sums: support for the PageRank mass-conservation proof -/

lemma foldl_add_sum {α : Type} (f : α → ℚ) (l : List α) : ∀ init : ℚ,
    l.foldl (fun s x => s + f x) init = init + (l.map f).sum := by
  induction l with
  | nil => intro init; simp
  | cons x l ih =>
    intro init
    simp only [List.foldl, List.map_cons, List.sum_cons]
    rw [ih]
    ring

lemma foldl_add_ite_sum {α : Type} (P : α → Prop) [DecidablePred P] (f : α → ℚ)
    (l : List α) : ∀ init : ℚ,
    l.foldl (fun s x => if P x then s + f x else s) init
      = init + (l.map (fun x => if P x then f x else 0)).sum := by
  induction l with
  | nil => intro init; simp
  | cons x l ih =>
    intro init
    simp only [List.foldl, List.map_cons, List.sum_cons]
    by_cases h : P x
    · rw [if_pos h, if_pos h, ih]; ring
    · rw [if_neg h, if_neg h, ih]; ring

lemma sum_map_add_q {α : Type} (f g : α → ℚ) (l : List α) :
    (l.map (fun x => f x + g x)).sum = (l.map f).sum + (l.map g).sum := by
  induction l with
  | nil => simp
  | cons x l ih => simp only [List.map_cons, List.sum_cons, ih]; ring

lemma sum_map_zero_q {α : Type} (l : List α) :
    (l.map (fun _ => (0 : ℚ))).sum = 0 := by
  induction l with
  | nil => rfl
  | cons x l ih => simp only [List.map_cons, List.sum_cons, ih, add_zero]

lemma sum_map_mul_left_q {α : Type} (c : ℚ) (f : α → ℚ) (l : List α) :
    (l.map (fun x => c * f x)).sum = c * (l.map f).sum := by
  induction l with
  | nil => simp
  | cons x l ih => simp only [List.map_cons, List.sum_cons, ih]; ring

lemma sum_map_mul_right_q {α : Type} (c : ℚ) (f : α → ℚ) (l : List α) :
    (l.map (fun x => f x * c)).sum = (l.map f).sum * c := by
  induction l with
  | nil => simp
  | cons x l ih => simp only [List.map_cons, List.sum_cons, ih]; ring

lemma sum_map_const_q {α : Type} (c : ℚ) (l : List α) :
    (l.map (fun _ => c)).sum = (l.length : ℚ) * c := by
  induction l with
  | nil => simp
  | cons x l ih =>
    simp only [List.map_cons, List.sum_cons, List.length_cons, ih]
    push_cast
    ring

lemma sum_map_swap_q {α β : Type} (f : α → β → ℚ) (l₁ : List α) (l₂ : List β) :
    (l₁.map (fun a => (l₂.map (f a)).sum)).sum
      = (l₂.map (fun b => (l₁.map (fun a => f a b)).sum)).sum := by
  induction l₁ with
  | nil =>
    simp only [List.map_nil, List.sum_nil]
    exact (sum_map_zero_q l₂).symm
  | cons a l ih =>
    simp only [List.map_cons, List.sum_cons, ih]
    rw [sum_map_add_q]

lemma filter_sum_eq_ite_sum {α : Type} (p : α → Bool) (f : α → ℚ) (l : List α) :
    ((l.filter p).map f).sum = (l.map (fun x => if p x then f x else 0)).sum := by
  induction l with
  | nil => rfl
  | cons x l ih => cases h : p x <;> simp [List.filter_cons, h, ih]

/-- The inner loop of the `in_edges` build collects one copy of the source per
matching dependency occurrence. -/
lemma fold_collect_replicate (dst x : String) (l : List String) :
    ∀ acc : List String,
      l.foldl (fun a d => if d = dst then a ++ [x] else a) acc
        = acc ++ List.replicate (l.count dst) x := by
  induction l with
  | nil => intro acc; simp
  | cons d l ih =>
    intro acc
    by_cases h : d = dst
    · subst h
      simp only [List.foldl, if_true]
      rw [ih (acc ++ [x]), List.count_cons_self, List.replicate_succ]
      simp [List.append_assoc]
    · simp only [List.foldl, if_neg h]
      rw [ih acc, List.count_cons_of_ne (fun hh => h hh.symm)]

lemma inSrcs_eq (g : Graph) (dst : String) :
    inSrcs g dst
      = g.foldl (fun acc p => acc ++ List.replicate (p.2.count dst) p.1) [] := by
  unfold inSrcs
  suffices h : ∀ acc : List String,
      g.foldl (fun acc p => p.2.foldl (fun a d => if d = dst then a ++ [p.1] else a) acc) acc
        = g.foldl (fun acc p => acc ++ List.replicate (p.2.count dst) p.1) acc from h []
  induction g with
  | nil => intro acc; rfl
  | cons p g ih =>
    intro acc
    simp only [List.foldl]
    rw [fold_collect_replicate dst p.1 p.2 acc, ih]

lemma sum_map_foldl_append {α : Type} (h : String → ℚ) (r : α → List String)
    (g : List α) : ∀ A : List String,
    ((g.foldl (fun acc p => acc ++ r p) A).map h).sum
      = (A.map h).sum + (g.map (fun p => ((r p).map h).sum)).sum := by
  induction g with
  | nil => intro A; simp
  | cons p g ih =>
    intro A
    simp only [List.foldl, List.map_cons, List.sum_cons]
    rw [ih, List.map_append, List.sum_append]
    ring

lemma sum_map_inSrcs (g : Graph) (dst : String) (h : String → ℚ) :
    ((inSrcs g dst).map h).sum
      = (g.map (fun p => ((p.2.count dst : ℕ) : ℚ) * h p.1)).sum := by
  rw [inSrcs_eq, sum_map_foldl_append]
  simp only [List.map_nil, List.sum_nil, zero_add]
  refine congrArg List.sum (List.map_congr_left ?_)
  intro p _
  rw [List.map_replicate, List.sum_replicate, nsmul_eq_mul]

lemma indicator_sum_one (keys : List String) (hk : keys.Nodup) (a : String)
    (ha : a ∈ keys) :
    (keys.map (fun dst => if a == dst then (1 : ℚ) else 0)).sum = 1 := by
  induction keys with
  | nil => cases ha
  | cons k ks ih =>
    rcases List.mem_cons.mp ha with rfl | ha'
    · have hnot : a ∉ ks := (List.nodup_cons.mp hk).1
      have hcongr : ∀ dst ∈ ks, (if a == dst then (1 : ℚ) else 0) = 0 := by
        intro dst hdst
        have hne : a ≠ dst := fun hh => hnot (hh ▸ hdst)
        simp [hne]
      have hz : (ks.map (fun dst => if a == dst then (1 : ℚ) else 0)).sum = 0 := by
        rw [List.map_congr_left hcongr, sum_map_zero_q ks]
      have hhead : (if a == a then (1 : ℚ) else 0) = 1 := by simp
      rw [List.map_cons, List.sum_cons, hhead, hz]
      norm_num
    · have hk2 : a ≠ k := fun hh => (List.nodup_cons.mp hk).1 (hh ▸ ha')
      have hb : (a == k) = false := beq_eq_false_iff_ne.mpr hk2
      simp only [List.map_cons, List.sum_cons, hb, Bool.false_eq_true, if_false,
        zero_add]
      exact ih (List.nodup_cons.mp hk).2 ha'

lemma count_sum_over_keys (keys : List String) (hk : keys.Nodup) :
    ∀ m : List String, (∀ x ∈ m, x ∈ keys) →
      (keys.map (fun dst => ((m.count dst : ℕ) : ℚ))).sum = (m.length : ℚ) := by
  intro m
  induction m with
  | nil => intro _; simp [sum_map_zero_q]
  | cons a m ih =>
    intro hsub
    have ha : a ∈ keys := hsub a (List.mem_cons_self a m)
    have hstep : ∀ dst ∈ keys,
        (((a :: m).count dst : ℕ) : ℚ)
          = ((m.count dst : ℕ) : ℚ) + (if a == dst then (1 : ℚ) else 0) := by
      intro dst _
      rw [List.count_cons]
      push_cast [apply_ite (fun n : ℕ => (n : ℚ))]
      rfl
    rw [List.map_congr_left hstep, sum_map_add_q,
      ih (fun x hx => hsub x (List.mem_cons_of_mem a hx)),
      indicator_sum_one keys hk a ha]
    simp only [List.length_cons]
    push_cast
    ring

lemma danglingMass_eq (g : Graph) (prev : String → ℚ) :
    danglingMass g prev
      = ((keysOf g).map (fun node => if outDeg g node = 0 then prev node else 0)).sum := by
  unfold danglingMass
  rw [foldl_add_sum, zero_add, filter_sum_eq_ite_sum]
  refine congrArg List.sum (List.map_congr_left ?_)
  intro node _
  simp only [beq_iff_eq]

lemma linkSum_eq (g : Graph) (prev : String → ℚ) (node : String) :
    linkSum g prev node
      = ((inSrcs g node).map
          (fun src => if 0 < outDeg g src then prev src / (outDeg g src : ℚ) else 0)).sum := by
  unfold linkSum
  rw [foldl_add_ite_sum, zero_add]

lemma linkSum_total (g : Graph) (hk : (keysOf g).Nodup) (hc : Closed g)
    (prev : String → ℚ) :
    ((keysOf g).map (fun node => linkSum g prev node)).sum
      = ((keysOf g).map (fun src => if 0 < outDeg g src then prev src else 0)).sum := by
  have h1 : ∀ node ∈ keysOf g, linkSum g prev node
      = (g.map (fun p => ((p.2.count node : ℕ) : ℚ)
          * (if 0 < outDeg g p.1 then prev p.1 / (outDeg g p.1 : ℚ) else 0))).sum := by
    intro node _
    rw [linkSum_eq, sum_map_inSrcs]
  rw [List.map_congr_left h1,
    sum_map_swap_q (fun node p => ((p.2.count node : ℕ) : ℚ)
      * (if 0 < outDeg g p.1 then prev p.1 / (outDeg g p.1 : ℚ) else 0)) (keysOf g) g]
  have h2 : ∀ p ∈ g,
      ((keysOf g).map (fun node => ((p.2.count node : ℕ) : ℚ)
          * (if 0 < outDeg g p.1 then prev p.1 / (outDeg g p.1 : ℚ) else 0))).sum
        = (if 0 < outDeg g p.1 then prev p.1 else 0) := by
    intro p hp
    rw [sum_map_mul_right_q, count_sum_over_keys (keysOf g) hk p.2 (hc p hp)]
    have hdeg : outDeg g p.1 = p.2.length := by
      unfold outDeg
      rw [lookupG_eq_of_mem g hk p hp]
    rw [hdeg]
    by_cases hl : 0 < p.2.length
    · rw [if_pos hl, if_pos hl]
      have hz : (p.2.length : ℚ) ≠ 0 :=
        Nat.cast_ne_zero.mpr (Nat.pos_iff_ne_zero.mp hl)
      rw [mul_comm, div_mul_cancel₀ _ hz]
    · rw [if_neg hl, if_neg hl, mul_zero]
  rw [List.map_congr_left h2]
  unfold keysOf
  rw [List.map_map]
  rfl

/-- The truthiness `if` on `dangling_share` collapses: each step value is
the base share plus the dangling share plus the damped link mass. -/
lemma prStep_eq (g : Graph) (damping : ℚ) (prev : String → ℚ) (node : String) :
    prStep g damping prev node
      = (1 - damping) / ((keysOf g).length : ℚ)
        + damping * danglingMass g prev / ((keysOf g).length : ℚ)
        + damping * linkSum g prev node := by
  unfold prStep
  by_cases h : damping * danglingMass g prev / ((keysOf g).length : ℚ) = 0
  · rw [if_pos h, h]
  · rw [if_neg h]

/-- One PageRank step maps total mass `S` to `(1 - damping) + damping * S`. -/
lemma prStep_sum (g : Graph) (damping : ℚ) (hk : (keysOf g).Nodup) (hc : Closed g)
    (hne : g ≠ []) (prev : String → ℚ) :
    ((keysOf g).map (prStep g damping prev)).sum
      = (1 - damping) + damping * ((keysOf g).map prev).sum := by
  have hnq : ((keysOf g).length : ℚ) ≠ 0 := by
    unfold keysOf
    rw [List.length_map]
    exact Nat.cast_ne_zero.mpr (Nat.pos_iff_ne_zero.mp (List.length_pos.mpr hne))
  rw [List.map_congr_left (fun node _ => prStep_eq g damping prev node),
    sum_map_add_q, sum_map_const_q, sum_map_mul_left_q, linkSum_total g hk hc prev]
  have hsplit : ((keysOf g).map prev).sum
      = ((keysOf g).map (fun node => if outDeg g node = 0 then prev node else 0)).sum
        + ((keysOf g).map (fun src => if 0 < outDeg g src then prev src else 0)).sum := by
    rw [← sum_map_add_q]
    refine congrArg List.sum (List.map_congr_left ?_)
    intro node _
    by_cases h0 : outDeg g node = 0
    · simp [h0]
    · simp [h0, Nat.pos_of_ne_zero h0]
  rw [hsplit, danglingMass_eq]
  field_simp
  ring

/-- The PageRank iteration preserves total mass 1 at every fuel and through
the early convergence exit. -/
lemma prLoop_sum (g : Graph) (damping tol : ℚ) (hk : (keysOf g).Nodup)
    (hc : Closed g) (hne : g ≠ []) (k : ℕ) :
    ∀ prev : String → ℚ, ((keysOf g).map prev).sum = 1 →
      ((keysOf g).map (prLoop g damping tol k prev)).sum = 1 := by
  induction k with
  | zero => intro prev h; exact h
  | succ k ih =>
    intro prev h
    have hr : ((keysOf g).map (prStep g damping prev)).sum = 1 := by
      rw [prStep_sum g damping hk hc hne prev, h]
      ring
    simp only [prLoop]
    by_cases hd : ((keysOf g).map
        (fun node => |prStep g damping prev node - prev node|)).sum < tol
    · rw [if_pos hd]; exact hr
    · rw [if_neg hd]; exact ih (prStep g damping prev) hr

/-- **C6.** `compute_pagerank` on a well-formed, closed, non-empty graph:
the rank vector is initialised uniformly to `1/N` (the `max_iter = 0` run
returns exactly that), each iteration redistributes the dangling mass
`damping * danglingMass / N` uniformly into every node's rank on top of the
base `(1-damping)/N` and the damped link mass, and the returned ranks sum
exactly to 1 whether iteration stops by tolerance or by the cap. -/
theorem pagerank_uniform_init_dangling_sum_one (g : Graph) (damping tol : ℚ)
    (max_iter : ℕ) (hk : (keysOf g).Nodup) (hc : Closed g) (hne : g ≠ []) :
    computePagerank g damping 0 tol
        = (keysOf g).map (fun node => (node, 1 / ((keysOf g).length : ℚ))) ∧
      (∀ prev node, prStep g damping prev node
          = (1 - damping) / ((keysOf g).length : ℚ)
            + damping * danglingMass g prev / ((keysOf g).length : ℚ)
            + damping * linkSum g prev node) ∧
      ((computePagerank g damping max_iter tol).map Prod.snd).sum = 1 := by
  have hn0 : ¬ ((keysOf g).length = 0) := by
    unfold keysOf
    rw [List.length_map]
    exact Nat.pos_iff_ne_zero.mp (List.length_pos.mpr hne)
  have hnq : ((keysOf g).length : ℚ) ≠ 0 := Nat.cast_ne_zero.mpr hn0
  refine ⟨?_, fun prev node => prStep_eq g damping prev node, ?_⟩
  · simp only [computePagerank]
    rw [if_neg hn0]
    rfl
  · simp only [computePagerank]
    rw [if_neg hn0, List.map_map]
    refine prLoop_sum g damping tol hk hc hne max_iter _ ?_
    rw [sum_map_const_q]
    field_simp

/-- Concrete two-node witness graph for C6: `B` is dangling. -/
def c6Graph : Graph := [("A", ["B"]), ("B", [])]

/-- Witness: `pagerank_uniform_init_dangling_sum_one` instantiated on the
two-node graph with the default damping 0.85, 50 iterations and tolerance
`1e-8`. -/
theorem pagerank_uniform_init_dangling_sum_one_witness :
    (keysOf c6Graph).Nodup ∧ Closed c6Graph ∧ c6Graph ≠ [] ∧
      ((computePagerank c6Graph (17 / 20) 50 (1 / 100000000)).map Prod.snd).sum = 1 := by
  have h := pagerank_uniform_init_dangling_sum_one c6Graph (17 / 20) (1 / 100000000)
    50 (by decide) (by decide) (by decide)
  exact ⟨by decide, by decide, by decide, h.2.2⟩

end RepoGen
